import Mathlib

/-!
# stepConstraintSolver

A shallow embedding of `main.go`: steps carrying composable admission and
completion predicates, the constraint builders `after`, `before`, `atMost`
and `atLeast`, and the budget-limited depth-first search `evaluate`.

Pointers `*step` are addresses (natural numbers) into a memory of step values.
The closures built by the constraint builders read memory only through the
`id` field of the steps they are handed, so a predicate receives the table of
identifiers together with the path.  Go's `int` is modelled by `Int`: the
budget only ever decreases towards zero and counts are bounded by the length
of a path, so no arithmetic wraps.
-/

namespace StepConstraintSolver

/-- In Go `path` is `[]*step`: a sequence of step pointers. -/
abbrev path := List Nat

/-- In Go `stepPredicate` is `func(path) bool`.  The first argument is the `id` field of
every step in memory, which is what a predicate may read through the pointers. -/
abbrev stepPredicate := (Nat → String) → path → Bool

/-- The Go struct `step`: an identifier, the admission predicate `condition` and the
completion predicate `postCondition`; `none` is Go's `nil` predicate. -/
structure step where
  id : String
  condition : Option stepPredicate
  postCondition : Option stepPredicate

/-- The Go struct `steps`: the registry (the embedded `path`) and the remaining budget. -/
structure steps where
  path : path
  limit : Int

/-- Memory of step values, indexed by address. -/
abbrev heap := Nat → step

/-- The identifier table of a memory: the `id` field read through each pointer. -/
def heap.ids (mem : heap) : Nat → String := fun a => (mem a).id

/-- The method `(p *path) count(s *step) int`: the number of entries of `p` whose `id`
equals the `id` of `s`. -/
def path.count (ids : Nat → String) (p : path) (s : Nat) : Int :=
  p.foldl (fun count e => if ids e = ids s then count + 1 else count) 0

/-- The test `s.condition == nil || s.condition(nextPath)` of the extension loop. -/
def admits (mem : heap) (s : Nat) (nextPath : path) : Bool :=
  match (mem s).condition with
  | none => true
  | some condition => condition mem.ids nextPath

/-- The negation of the test `s.postCondition != nil && !s.postCondition(path)`. -/
def completes (mem : heap) (s : Nat) (p : path) : Bool :=
  match (mem s).postCondition with
  | none => true
  | some postCondition => postCondition mem.ids p

/-- The second loop of `evaluate`: `postConditionsMet` stays true exactly when no step of
the registry has a completion predicate that fails on the path. -/
def postConditionsMet (mem : heap) (registry : path) (p : path) : Bool :=
  registry.all (fun s => completes mem s p)

/-- The function `evaluate(steps *steps, path path, paths *[]path)`.  The mutated
`steps` and `*paths` are passed in and returned.  The first argument bounds the depth of
the recursion; every nested call happens after `steps.limit--` on a positive limit, so a
depth bound of `steps.limit` is never exhausted before the limit itself is
(`evaluate_fuel`). -/
def evaluate (mem : heap) : Nat → steps → path → List path → steps × List path
  | 0, steps, _, paths => (steps, paths)
  | fuel + 1, steps, p, paths =>
    if steps.limit ≤ 0 then (steps, paths)
    else
      let st := steps.path.foldl
        (fun st s =>
          let nextPath := p ++ [s]
          if admits mem s nextPath then evaluate mem fuel st.1 nextPath st.2 else st)
        ((⟨steps.path, steps.limit - 1⟩ : StepConstraintSolver.steps), paths)
      if postConditionsMet mem st.1.path p then (st.1, st.2 ++ [p]) else st

/-- The method `(s *steps) evaluate(limit int) []path`, returning the accepted paths
together with the mutated receiver. -/
def steps.evaluate (mem : heap) (s : steps) (limit : Int) :
    steps × List StepConstraintSolver.path :=
  StepConstraintSolver.evaluate mem limit.toNat ⟨s.path, limit⟩ [] []

/-- The program state of the set-up phase: the memory of step values, the next free
address, and the registry `s` that `newStep` appends to. -/
structure world where
  mem : heap
  next : Nat
  s : steps

/-- The state before any step is created: `var s steps` is the zero value. -/
def world.init : world := ⟨fun _ => ⟨"", none, none⟩, 0, ⟨[], 0⟩⟩

/-- The method `(s *steps) newStep(name string) *step`: allocates `&step{name, nil, nil}`,
appends the pointer to the registry and returns it. -/
def steps.newStep (w : world) (name : String) : world × Nat :=
  (⟨Function.update w.mem w.next ⟨name, none, none⟩, w.next + 1,
    ⟨w.s.path ++ [w.next], w.s.limit⟩⟩, w.next)

/-- The method `addCondition(target *stepPredicate, pred stepPredicate)`: the new value
of `*target`.  A `nil` target becomes `pred`; otherwise the conjunction
`originalCondition(path) && pred(path)`. -/
def step.addCondition (target : Option stepPredicate) (pred : stepPredicate) :
    Option stepPredicate :=
  match target with
  | none => some pred
  | some originalCondition => some (fun ids p => originalCondition ids p && pred ids p)

/-- The method `(s *step) after(afterStep *step)`: adds `p.count(afterStep) >= 1` to the
`condition` of `s`. -/
def step.after (mem : heap) (s afterStep : Nat) : heap :=
  Function.update mem s
    ⟨(mem s).id,
      step.addCondition (mem s).condition
        (fun ids p => decide (path.count ids p afterStep ≥ 1)),
      (mem s).postCondition⟩

/-- The method `(s *step) before(beforeStep *step)`: adds `p.count(beforeStep) == 0` to
the `condition` of `s`. -/
def step.before (mem : heap) (s beforeStep : Nat) : heap :=
  Function.update mem s
    ⟨(mem s).id,
      step.addCondition (mem s).condition
        (fun ids p => decide (path.count ids p beforeStep = 0)),
      (mem s).postCondition⟩

/-- The method `(s *step) atMost(count int)`: adds `p.count(s) <= count` to the
`condition` of `s`. -/
def step.atMost (mem : heap) (s : Nat) (count : Int) : heap :=
  Function.update mem s
    ⟨(mem s).id,
      step.addCondition (mem s).condition
        (fun ids p => decide (path.count ids p s ≤ count)),
      (mem s).postCondition⟩

/-- The method `(s *step) atLeast(count int)`: adds `p.count(s) >= count` to the
`postCondition` of `s`. -/
def step.atLeast (mem : heap) (s : Nat) (count : Int) : heap :=
  Function.update mem s
    ⟨(mem s).id, (mem s).condition,
      step.addCondition (mem s).postCondition
        (fun ids p => decide (path.count ids p s ≥ count))⟩

/-- One call of the set-up surface of a program that works with the single registry `s`:
`newStep` on that registry, or a constraint builder on a step that was created before.
Steps of a second registry are outside this surface; `foreignMem` builds one from
`steps.newStep` and `step.after` directly. -/
inductive builderCall where
  | newStep (name : String)
  | after (s afterStep : Nat)
  | before (s beforeStep : Nat)
  | atMost (s : Nat) (count : Int)
  | atLeast (s : Nat) (count : Int)

/-- Runs one set-up call of a single-registry program.  Here a builder is invoked on, and
handed, only pointers that `newStep` has already returned on `s`; a call naming any other
address has no run.  The Go builders themselves take any `*step` and make no such check. -/
def builderCall.run (w : world) : builderCall → Option world
  | .newStep name => some (steps.newStep w name).1
  | .after s afterStep =>
    if s < w.next ∧ afterStep < w.next then some ⟨step.after w.mem s afterStep, w.next, w.s⟩
    else none
  | .before s beforeStep =>
    if s < w.next ∧ beforeStep < w.next then
      some ⟨step.before w.mem s beforeStep, w.next, w.s⟩
    else none
  | .atMost s count =>
    if s < w.next then some ⟨step.atMost w.mem s count, w.next, w.s⟩ else none
  | .atLeast s count =>
    if s < w.next then some ⟨step.atLeast w.mem s count, w.next, w.s⟩ else none

/-- Runs a sequence of set-up calls in program order. -/
def setup : List builderCall → world → Option world
  | [], w => some w
  | c :: cs, w => (c.run w).bind (setup cs)

/-- A path is admissible when all its entries are registry steps and the last step of
each non-empty prefix accepts that prefix. -/
def admissible (mem : heap) (registry : path) (p : path) : Prop :=
  (∀ e ∈ p, e ∈ registry) ∧ ∀ q S, q ++ [S] <+: p → admits mem S (q ++ [S]) = true

/-- The steps of the registry have pairwise distinct identifiers. -/
def distinctIds (mem : heap) (registry : path) : Prop :=
  (registry.map mem.ids).Nodup

/-- The path `P` is reached from `p` by appending registry steps that each accept the
prefix they complete. -/
inductive reach (mem : heap) (registry : path) (p : path) : path → Prop where
  | refl : reach mem registry p p
  | step {P : path} {S : Nat} : reach mem registry p P → S ∈ registry →
      admits mem S (P ++ [S]) = true → reach mem registry p (P ++ [S])

/-- The body of the extension loop of `evaluate` at path `p`, for one registry step. -/
def extend (mem : heap) (fuel : Nat) (p : path) (st : steps × List path) (s : Nat) :
    steps × List path :=
  if admits mem s (p ++ [s]) then evaluate mem fuel st.1 (p ++ [s]) st.2 else st

/-- What every call of `evaluate` at `q` guarantees about its result `r`: the registry is
unchanged, the budget did not grow, and the accepted paths were extended by paths that are
reached from `q`, meet every completion predicate, and are listed so that no path comes
before one of its extensions. -/
def soundCall (mem : heap) (registry : path) (q : path) (st : steps) (paths : List path)
    (r : steps × List path) : Prop :=
  r.1.path = registry ∧ r.1.limit ≤ st.limit ∧
    ∃ new, r.2 = paths ++ new ∧
      (∀ P ∈ new, reach mem registry q P ∧ postConditionsMet mem registry P = true) ∧
      (registry.Nodup → new.Pairwise (fun a b => ¬ a <+: b))

/-- Whether an optional predicate holds: the `nil` predicate always does. -/
def holds (t : Option stepPredicate) (ids : Nat → String) (p : path) : Bool :=
  match t with
  | none => true
  | some f => f ids p

/-- The step at address `A` in `m2` has the identifier it has in `m1`, and each of its two
predicates accepts in `m2` only what it accepts in `m1`. -/
def narrows (m1 m2 : heap) (A : Nat) : Prop :=
  (m2 A).id = (m1 A).id ∧
    (∀ ids p, holds (m2 A).condition ids p = true → holds (m1 A).condition ids p = true) ∧
    (∀ ids p, holds (m2 A).postCondition ids p = true →
      holds (m1 A).postCondition ids p = true)

/-- A sample set-up: two steps, `a` at most and at least once and before `b`, `b` after `a`
and at most once. -/
def exampleCalls : List builderCall :=
  [.newStep "a", .newStep "b", .atMost 0 1, .atLeast 0 1, .after 1 0, .atMost 1 1,
    .before 0 1]

/-- The state the sample set-up ends in. -/
def exampleWorld : world := (setup exampleCalls world.init).getD world.init

/-- A registry of two steps, `a` and `b`, without any constraint. -/
def pairWorld : world := (setup [.newStep "a", .newStep "b"] world.init).getD world.init

/-- A registry of the single step `a`, without any constraint. -/
def singleWorld : world := (setup [.newStep "a"] world.init).getD world.init

/-- No step of the registry has an admission or a completion predicate. -/
def unconstrained (mem : heap) (registry : path) : Prop :=
  ∀ S ∈ registry, (mem S).condition = none ∧ (mem S).postCondition = none

/-- The number `N^0 + N^1 + ... + N^L` of sequences of length at most `L` over `N`
steps. -/
def sequenceCount (N L : Nat) : Nat := ((List.range (L + 1)).map (fun i => N ^ i)).sum

/-- Unconstrained enumeration as the specification words it: on an unconstrained registry
with pairwise distinct identifiers and `N^0 + ... + N^L ≤ B`, the result of
`steps.evaluate(B)` holds every sequence of registry steps of length at most `L` exactly
once, and so has at least `N^0 + ... + N^L` entries. -/
def enumeratesAll (mem : heap) (s : steps) (B : Int) (L : Nat) : Prop :=
  distinctIds mem s.path → unconstrained mem s.path →
    (sequenceCount s.path.length L : Int) ≤ B →
    (∀ P : path, (∀ e ∈ P, e ∈ s.path) → P.length ≤ L →
      (steps.evaluate mem s B).2.countP (fun Q => decide (Q = P)) = 1) ∧
      (sequenceCount s.path.length L : Int) ≤ ((steps.evaluate mem s B).2.length : Int)

/-- The constant `limit` of `main.go`: the budget `main` searches with. -/
def limit : Int := 10000

/-- The set-up calls of `main`, in program order.  The six `newStep` calls return the
addresses `0` (start), `1` (upgradeOne), `2` (upgradeTwo), `3` (finalize), `4` (mixIn1)
and `5` (mixIn2). -/
def mainCalls : List builderCall :=
  [.newStep "start     ", .atMost 0 1, .atLeast 0 1,
    .newStep "upgradeOne", .atMost 1 2, .atLeast 1 1,
    .newStep "upgradeTwo", .atMost 2 1, .atLeast 2 1,
    .newStep "finalize  ", .atMost 3 1, .atLeast 3 0,
    .newStep "mix1      ", .atMost 4 1, .atLeast 4 1,
    .newStep "mix2      ", .atMost 5 1, .atLeast 5 1,
    .after 1 0, .before 1 2,
    .after 2 1, .before 2 3,
    .after 4 1,
    .after 5 4, .before 5 3,
    .after 3 2]

/-- The state `main` is in when it calls `s.evaluate(limit)`. -/
def mainWorld : world := (setup mainCalls world.init).getD world.init

/-- The value `paths` that `main` computes and hands to `printPaths`. -/
def main : List path := (steps.evaluate mainWorld.mem mainWorld.s limit).2

/-- The number of positions of the path `P` that hold the step pointer `a`. -/
def occurrences (P : path) (a : Nat) : Nat := P.countP (fun e => decide (e = a))

/-- The step `a` was appended to the registry before the step `b`. -/
def addedBefore (registry : path) (a b : Nat) : Prop :=
  ∃ m n : Nat, m < n ∧ registry[m]? = some a ∧ registry[n]? = some b

/-- The paths `P` and `Q` agree up to some position, where `P` holds a step that was added
to the registry before the step `Q` holds there. -/
def branchBefore (registry : path) (P Q : path) : Prop :=
  ∃ c a b tP tQ, P = c ++ a :: tP ∧ Q = c ++ b :: tQ ∧ addedBefore registry a b

/-- The function `evaluate` run with a bound on the recursion depth that is checked: the
result is `none` when a call that has budget left would have to recurse deeper than the
bound allows, and otherwise what `evaluate` computes. -/
def evaluateChecked (mem : heap) : Nat → steps → path → List path →
    Option (steps × List path)
  | 0, steps, _, paths => if steps.limit ≤ 0 then some (steps, paths) else none
  | fuel + 1, steps, p, paths =>
    if steps.limit ≤ 0 then some (steps, paths)
    else
      match steps.path.foldlM
        (fun st s =>
          let nextPath := p ++ [s]
          if admits mem s nextPath then evaluateChecked mem fuel st.1 nextPath st.2
          else some st)
        ((⟨steps.path, steps.limit - 1⟩ : StepConstraintSolver.steps), paths) with
      | none => none
      | some st => if postConditionsMet mem st.1.path p then some (st.1, st.2 ++ [p])
        else some st

/-- A registry of two steps, `a` and `b`, each allowed at most once. -/
def branchWorld : world :=
  (setup [.newStep "a", .newStep "b", .atMost 0 1, .atMost 1 1] world.init).getD world.init

/-- The registry `s` after `a := s.newStep("a"); s.newStep("b")`: the step `a` at address
`0` and the step `b` at address `1`. -/
def foreignSteps : steps := (steps.newStep (steps.newStep world.init "a").1 "b").1.s

/-- The memory after `a := s.newStep("a"); s.newStep("b"); var other steps;
x := other.newStep("b"); a.after(x)`: the step `x`, at address `2`, belongs to the second
registry `other` and carries the name of the registry step `b`. -/
def foreignMem : heap :=
  let w1 := (steps.newStep world.init "a").1
  let w2 := (steps.newStep w1 "b").1
  let o := (steps.newStep ⟨w2.mem, w2.next, ⟨[], 0⟩⟩ "b").1
  step.after o.mem 0 2

/-! ## The search: unfolding and soundness -/

theorem evaluate_zero (mem : heap) (st : steps) (p : path) (paths : List path) :
    evaluate mem 0 st p paths = (st, paths) := rfl

theorem evaluate_succ (mem : heap) (fuel : Nat) (st : steps) (p : path)
    (paths : List path) :
    evaluate mem (fuel + 1) st p paths =
      if st.limit ≤ 0 then (st, paths)
      else
        if postConditionsMet mem
            (st.path.foldl (extend mem fuel p) (⟨st.path, st.limit - 1⟩, paths)).1.path p
        then ((st.path.foldl (extend mem fuel p) (⟨st.path, st.limit - 1⟩, paths)).1,
          (st.path.foldl (extend mem fuel p) (⟨st.path, st.limit - 1⟩, paths)).2 ++ [p])
        else st.path.foldl (extend mem fuel p) (⟨st.path, st.limit - 1⟩, paths) := rfl

theorem reach_isPrefix {mem : heap} {reg p P : path} (h : reach mem reg p P) : p <+: P := by
  induction h with
  | refl => exact List.prefix_refl _
  | step _ _ _ ih => exact ih.trans (List.prefix_append _ _)

theorem reach_trans {mem : heap} {reg p q P : path} (h1 : reach mem reg p q)
    (h2 : reach mem reg q P) : reach mem reg p P := by
  induction h2 with
  | refl => exact h1
  | step _ hS ha ih => exact reach.step ih hS ha

theorem snoc_isPrefix_inj {p b : path} {s t : Nat} (h1 : p ++ [s] <+: b)
    (h2 : p ++ [t] <+: b) : s = t := by
  have h := List.prefix_of_prefix_length_le h1 h2 (by simp)
  have h3 := h.eq_of_length (by simp)
  simpa using h3

theorem foldl_extend_sound (mem : heap) (fuel : Nat) (p reg : path)
    (ih : ∀ (st : steps) (q : path) (paths : List path), st.path = reg →
      soundCall mem reg q st paths (evaluate mem fuel st q paths)) :
    ∀ (l : List Nat) (st : steps) (paths : List path), (∀ s ∈ l, s ∈ reg) →
      st.path = reg →
      (l.foldl (extend mem fuel p) (st, paths)).1.path = reg ∧
      (l.foldl (extend mem fuel p) (st, paths)).1.limit ≤ st.limit ∧
      ∃ new, (l.foldl (extend mem fuel p) (st, paths)).2 = paths ++ new ∧
        (∀ P ∈ new, ∃ s ∈ l, admits mem s (p ++ [s]) = true ∧
          reach mem reg (p ++ [s]) P ∧ postConditionsMet mem reg P = true) ∧
        (reg.Nodup → l.Nodup → new.Pairwise (fun a b => ¬ a <+: b)) := by
  intro l
  induction l with
  | nil =>
    intro st paths _ hst
    exact ⟨hst, le_refl _, [], by simp, by simp, by simp⟩
  | cons s l ihl =>
    intro st paths hl hst
    have hl2 : ∀ t ∈ l, t ∈ reg := fun t ht => hl t (List.mem_cons_of_mem _ ht)
    rw [List.foldl_cons]
    by_cases ha : admits mem s (p ++ [s]) = true
    · have hx : extend mem fuel p (st, paths) s = evaluate mem fuel st (p ++ [s]) paths := by
        simp [extend, ha]
      rw [hx]
      obtain ⟨h1, h2, new1, e1, hs1, pw1⟩ := ih st (p ++ [s]) paths hst
      obtain ⟨g1, g2, new2, e2, hs2, pw2⟩ :=
        ihl (evaluate mem fuel st (p ++ [s]) paths).1
          (evaluate mem fuel st (p ++ [s]) paths).2 hl2 h1
      refine ⟨g1, le_trans g2 h2, new1 ++ new2, ?_, ?_, ?_⟩
      · rw [e2, e1, List.append_assoc]
      · intro P hP
        rcases List.mem_append.1 hP with hP | hP
        · exact ⟨s, List.mem_cons_self _ _, ha, (hs1 P hP).1, (hs1 P hP).2⟩
        · obtain ⟨t, ht, r⟩ := hs2 P hP
          exact ⟨t, List.mem_cons_of_mem _ ht, r⟩
      · intro hreg hnd
        rw [List.nodup_cons] at hnd
        rw [List.pairwise_append]
        refine ⟨pw1 hreg, pw2 hreg hnd.2, ?_⟩
        intro a haM b hbM hab
        obtain ⟨t, ht, -, hr, -⟩ := hs2 b hbM
        have hsa : p ++ [s] <+: b := (reach_isPrefix (hs1 a haM).1).trans hab
        have : s = t := snoc_isPrefix_inj hsa (reach_isPrefix hr)
        exact hnd.1 (this ▸ ht)
    · have hx : extend mem fuel p (st, paths) s = (st, paths) := by
        simp [extend, ha]
      rw [hx]
      obtain ⟨g1, g2, new2, e2, hs2, pw2⟩ := ihl st paths hl2 hst
      refine ⟨g1, g2, new2, e2, ?_, ?_⟩
      · intro P hP
        obtain ⟨t, ht, r⟩ := hs2 P hP
        exact ⟨t, List.mem_cons_of_mem _ ht, r⟩
      · intro hreg hnd
        exact pw2 hreg (List.nodup_cons.1 hnd).2

theorem evaluate_sound (mem : heap) :
    ∀ (fuel : Nat) (st : steps) (p : path) (paths : List path),
      soundCall mem st.path p st paths (evaluate mem fuel st p paths) := by
  intro fuel
  induction fuel with
  | zero =>
    intro st p paths
    exact ⟨rfl, le_refl _, [], by simp [evaluate_zero], by simp, by simp⟩
  | succ fuel ih =>
    intro st p paths
    rw [evaluate_succ]
    by_cases h0 : st.limit ≤ 0
    · rw [if_pos h0]
      exact ⟨rfl, le_refl _, [], by simp, by simp, by simp⟩
    · rw [if_neg h0]
      obtain ⟨g1, g2, new, e, hs, pw⟩ :=
        foldl_extend_sound mem fuel p st.path
          (fun st2 q paths2 h => h ▸ ih st2 q paths2) st.path
          ⟨st.path, st.limit - 1⟩ paths (fun _ h => h) rfl
      have g2 : (st.path.foldl (extend mem fuel p)
          (⟨st.path, st.limit - 1⟩, paths)).1.limit ≤ st.limit := by
        have : (st.limit - 1 : Int) ≤ st.limit := by omega
        exact le_trans g2 this
      have hs2 : ∀ P ∈ new, reach mem st.path p P ∧
          postConditionsMet mem st.path P = true := by
        intro P hP
        obtain ⟨t, ht, ha, hr, hc⟩ := hs P hP
        exact ⟨reach_trans (reach.step reach.refl ht ha) hr, hc⟩
      rw [g1]
      by_cases hc : postConditionsMet mem st.path p = true
      · rw [if_pos hc]
        refine ⟨g1, g2, new ++ [p], ?_, ?_, ?_⟩
        · show _ ++ [p] = _
          rw [e, List.append_assoc]
        · intro P hP
          rcases List.mem_append.1 hP with hP | hP
          · exact hs2 P hP
          · rw [List.mem_singleton.1 hP]
            exact ⟨reach.refl, hc⟩
        · intro hreg
          rw [List.pairwise_append]
          refine ⟨pw hreg hreg, List.pairwise_singleton _ _, ?_⟩
          intro a haM b hbM hab
          rw [List.mem_singleton.1 hbM] at hab
          obtain ⟨t, -, -, hr, -⟩ := hs a haM
          have h1 := ((reach_isPrefix hr).trans hab).length_le
          simp at h1
      · rw [if_neg hc]
        exact ⟨g1, g2, new, e, hs2, fun hreg => pw hreg hreg⟩

theorem admits_eq_holds (mem : heap) (s : Nat) (p : path) :
    admits mem s p = holds (mem s).condition mem.ids p := rfl

theorem completes_eq_holds (mem : heap) (s : Nat) (p : path) :
    completes mem s p = holds (mem s).postCondition mem.ids p := rfl

theorem holds_iff (t : Option stepPredicate) (ids : Nat → String) (p : path) :
    holds t ids p = true ↔ t = none ∨ ∃ c, t = some c ∧ c ids p = true := by
  cases t <;> simp [holds]

theorem reach_nil_admissible {mem : heap} {reg P : path} (h : reach mem reg [] P) :
    admissible mem reg P := by
  induction h with
  | refl =>
    refine ⟨by simp, ?_⟩
    intro q S hq
    have := hq.length_le
    simp at this
  | step _ hS ha ih =>
    refine ⟨?_, ?_⟩
    · intro e he
      rcases List.mem_append.1 he with he | he
      · exact ih.1 e he
      · rw [List.mem_singleton.1 he]
        exact hS
    · intro q S hq
      rcases List.prefix_concat_iff.1 hq with h | h
      · obtain ⟨h1, h2⟩ := List.append_inj' h rfl
        rw [h1, List.singleton_inj.1 h2]
        exact ha
      · exact ih.2 q S h

theorem mem_evaluate_reach {mem : heap} {s : steps} {B : Int} {P : path}
    (hP : P ∈ (steps.evaluate mem s B).2) :
    reach mem s.path [] P ∧ postConditionsMet mem s.path P = true := by
  obtain ⟨-, -, new, e, hs, -⟩ := evaluate_sound mem B.toNat ⟨s.path, B⟩ [] []
  unfold steps.evaluate at hP
  rw [e, List.nil_append] at hP
  exact hs P hP

theorem evaluate_pairwise (mem : heap) (s : steps) (B : Int) (hnd : s.path.Nodup) :
    (steps.evaluate mem s B).2.Pairwise (fun a b => ¬ a <+: b) := by
  obtain ⟨-, -, new, e, -, pw⟩ := evaluate_sound mem B.toNat ⟨s.path, B⟩ [] []
  unfold steps.evaluate
  rw [e, List.nil_append]
  exact pw hnd

theorem take_concat_isPrefix {P : path} {i A : Nat} (hi : P[i]? = some A) :
    P.take i ++ [A] <+: P := by
  have h : P.take (i + 1) = P.take i ++ [A] := by
    rw [List.take_succ, hi]
    rfl
  rw [← h]
  exact List.take_prefix _ _

theorem admissible_at {mem : heap} {reg P : path} {i A : Nat} (h : admissible mem reg P)
    (hi : P[i]? = some A) : holds (mem A).condition mem.ids (P.take i ++ [A]) = true := by
  rw [← admits_eq_holds]
  exact h.2 _ _ (take_concat_isPrefix hi)

/-! ## Counting and the constraint builders -/

theorem count_eq_countP (ids : Nat → String) (p : path) (s : Nat) :
    path.count ids p s = ((p.countP (fun e => decide (ids e = ids s)) : Nat) : Int) := by
  have h : ∀ (l : path) (c : Int),
      l.foldl (fun count e => if ids e = ids s then count + 1 else count) c =
        c + ((l.countP (fun e => decide (ids e = ids s)) : Nat) : Int) := by
    intro l
    induction l with
    | nil => intro c; simp
    | cons a l ih =>
      intro c
      rw [List.foldl_cons, ih, List.countP_cons]
      by_cases h : ids a = ids s
      · simp only [h, if_true, decide_True]
        push_cast
        ring
      · simp [h]
  unfold path.count
  rw [h]
  simp

theorem holds_addCondition (t : Option stepPredicate) (pred : stepPredicate)
    (ids : Nat → String) (p : path) :
    holds (step.addCondition t pred) ids p = (holds t ids p && pred ids p) := by
  cases t <;> simp [step.addCondition, holds]

theorem narrows_refl (m : heap) (A : Nat) : narrows m m A :=
  ⟨rfl, fun _ _ h => h, fun _ _ h => h⟩

theorem narrows_trans {m1 m2 m3 : heap} {A : Nat} (h1 : narrows m1 m2 A)
    (h2 : narrows m2 m3 A) : narrows m1 m3 A :=
  ⟨h2.1.trans h1.1, fun ids p h => h1.2.1 ids p (h2.2.1 ids p h),
    fun ids p h => h1.2.2 ids p (h2.2.2 ids p h)⟩

theorem narrows_update_condition (m : heap) (s A : Nat) (pred : stepPredicate) :
    narrows m
      (Function.update m s
        ⟨(m s).id, step.addCondition (m s).condition pred, (m s).postCondition⟩) A := by
  by_cases hs : A = s
  · subst hs
    refine ⟨by simp, ?_, by simp⟩
    intro ids p h
    simp only [Function.update_same, holds_addCondition, Bool.and_eq_true] at h
    exact h.1
  · simp [narrows, Function.update_noteq hs]

theorem narrows_update_postCondition (m : heap) (s A : Nat) (pred : stepPredicate) :
    narrows m
      (Function.update m s
        ⟨(m s).id, (m s).condition, step.addCondition (m s).postCondition pred⟩) A := by
  by_cases hs : A = s
  · subst hs
    refine ⟨by simp, by simp, ?_⟩
    intro ids p h
    simp only [Function.update_same, holds_addCondition, Bool.and_eq_true] at h
    exact h.1
  · simp [narrows, Function.update_noteq hs]

theorem run_narrows {c : builderCall} {w w2 : world} (h : c.run w = some w2) {A : Nat}
    (hA : A < w.next) : A < w2.next ∧ narrows w.mem w2.mem A := by
  cases c with
  | newStep name =>
    simp only [builderCall.run, steps.newStep, Option.some.injEq] at h
    subst h
    have hne : A ≠ w.next := by omega
    exact ⟨by show A < w.next + 1; omega, by simp [narrows, Function.update_noteq hne]⟩
  | after s x =>
    simp only [builderCall.run] at h
    split at h
    · simp only [Option.some.injEq] at h
      subst h
      exact ⟨hA, narrows_update_condition _ _ _ _⟩
    · exact absurd h (by simp)
  | before s x =>
    simp only [builderCall.run] at h
    split at h
    · simp only [Option.some.injEq] at h
      subst h
      exact ⟨hA, narrows_update_condition _ _ _ _⟩
    · exact absurd h (by simp)
  | atMost s n =>
    simp only [builderCall.run] at h
    split at h
    · simp only [Option.some.injEq] at h
      subst h
      exact ⟨hA, narrows_update_condition _ _ _ _⟩
    · exact absurd h (by simp)
  | atLeast s n =>
    simp only [builderCall.run] at h
    split at h
    · simp only [Option.some.injEq] at h
      subst h
      exact ⟨hA, narrows_update_postCondition _ _ _ _⟩
    · exact absurd h (by simp)

theorem setup_cons {c : builderCall} {cs : List builderCall} {w0 w : world}
    (h : setup (c :: cs) w0 = some w) : ∃ w1, c.run w0 = some w1 ∧ setup cs w1 = some w := by
  simp only [setup] at h
  cases hc : c.run w0 with
  | none => rw [hc] at h; exact absurd h (by simp)
  | some w1 => rw [hc] at h; exact ⟨w1, rfl, h⟩

theorem setup_narrows {calls : List builderCall} :
    ∀ {w0 w : world}, setup calls w0 = some w → ∀ {A : Nat}, A < w0.next →
      A < w.next ∧ narrows w0.mem w.mem A := by
  induction calls with
  | nil =>
    intro w0 w h A hA
    simp only [setup, Option.some.injEq] at h
    subst h
    exact ⟨hA, narrows_refl _ _⟩
  | cons c cs ih =>
    intro w0 w h A hA
    obtain ⟨w1, h1, h2⟩ := setup_cons h
    obtain ⟨hA1, n1⟩ := run_narrows h1 hA
    obtain ⟨hA2, n2⟩ := ih h2 hA1
    exact ⟨hA2, narrows_trans n1 n2⟩

theorem setup_mem_call {calls : List builderCall} {c : builderCall} (hc : c ∈ calls) :
    ∀ {w0 w : world}, setup calls w0 = some w →
      ∃ w1 w2, c.run w1 = some w2 ∧
        ∀ A, A < w2.next → A < w.next ∧ narrows w2.mem w.mem A := by
  induction calls with
  | nil => exact absurd hc (List.not_mem_nil _)
  | cons d ds ih =>
    intro w0 w h
    obtain ⟨w1, h1, h2⟩ := setup_cons h
    rcases List.mem_cons.1 hc with hcd | hcd
    · subst hcd
      exact ⟨w0, w1, h1, fun A hA => setup_narrows h2 hA⟩
    · exact ih hcd h2

theorem run_registry {c : builderCall} {w w2 : world} (h : c.run w = some w2)
    (hw : ∀ a, a < w.next → a ∈ w.s.path) : ∀ a, a < w2.next → a ∈ w2.s.path := by
  cases c with
  | newStep name =>
    simp only [builderCall.run, steps.newStep, Option.some.injEq] at h
    subst h
    intro a ha
    have ha2 : a < w.next + 1 := ha
    show a ∈ w.s.path ++ [w.next]
    rcases Nat.lt_succ_iff_lt_or_eq.1 ha2 with h1 | h1
    · exact List.mem_append_left _ (hw a h1)
    · exact List.mem_append_right _ (by simp [h1])
  | after s x =>
    simp only [builderCall.run] at h
    split at h
    · simp only [Option.some.injEq] at h
      subst h
      exact hw
    · exact absurd h (by simp)
  | before s x =>
    simp only [builderCall.run] at h
    split at h
    · simp only [Option.some.injEq] at h
      subst h
      exact hw
    · exact absurd h (by simp)
  | atMost s n =>
    simp only [builderCall.run] at h
    split at h
    · simp only [Option.some.injEq] at h
      subst h
      exact hw
    · exact absurd h (by simp)
  | atLeast s n =>
    simp only [builderCall.run] at h
    split at h
    · simp only [Option.some.injEq] at h
      subst h
      exact hw
    · exact absurd h (by simp)

theorem setup_registry {calls : List builderCall} :
    ∀ {w0 w : world}, setup calls w0 = some w → (∀ a, a < w0.next → a ∈ w0.s.path) →
      ∀ a, a < w.next → a ∈ w.s.path := by
  induction calls with
  | nil =>
    intro w0 w h hw
    simp only [setup, Option.some.injEq] at h
    subst h
    exact hw
  | cons c cs ih =>
    intro w0 w h hw
    obtain ⟨w1, h1, h2⟩ := setup_cons h
    exact ih h2 (run_registry h1 hw)

theorem init_registry : ∀ a, a < world.init.next → a ∈ world.init.s.path := by
  intro a ha
  exact absurd ha (Nat.not_lt_zero a)

theorem setup_after {calls : List builderCall} {w : world} {A X : Nat}
    (h : setup calls world.init = some w) (hc : builderCall.after A X ∈ calls) :
    A ∈ w.s.path ∧ X ∈ w.s.path ∧
      ∀ ids p, holds (w.mem A).condition ids p = true → 1 ≤ path.count ids p X := by
  obtain ⟨w1, w2, hr, hn⟩ := setup_mem_call hc h
  have hreg := setup_registry h init_registry
  simp only [builderCall.run] at hr
  split at hr
  · rename_i hv
    simp only [Option.some.injEq] at hr
    subst hr
    refine ⟨hreg A (hn A hv.1).1, hreg X (hn X hv.2).1, ?_⟩
    intro ids p hp
    have h2 := (hn A hv.1).2.2.1 ids p hp
    simp only [step.after, Function.update_same, holds_addCondition, Bool.and_eq_true,
      decide_eq_true_eq] at h2
    exact h2.2
  · exact absurd hr (by simp)

theorem setup_before {calls : List builderCall} {w : world} {A X : Nat}
    (h : setup calls world.init = some w) (hc : builderCall.before A X ∈ calls) :
    A ∈ w.s.path ∧ X ∈ w.s.path ∧
      ∀ ids p, holds (w.mem A).condition ids p = true → path.count ids p X = 0 := by
  obtain ⟨w1, w2, hr, hn⟩ := setup_mem_call hc h
  have hreg := setup_registry h init_registry
  simp only [builderCall.run] at hr
  split at hr
  · rename_i hv
    simp only [Option.some.injEq] at hr
    subst hr
    refine ⟨hreg A (hn A hv.1).1, hreg X (hn X hv.2).1, ?_⟩
    intro ids p hp
    have h2 := (hn A hv.1).2.2.1 ids p hp
    simp only [step.before, Function.update_same, holds_addCondition, Bool.and_eq_true,
      decide_eq_true_eq] at h2
    exact h2.2
  · exact absurd hr (by simp)

theorem setup_atMost {calls : List builderCall} {w : world} {A : Nat} {n : Int}
    (h : setup calls world.init = some w) (hc : builderCall.atMost A n ∈ calls) :
    A ∈ w.s.path ∧
      ∀ ids p, holds (w.mem A).condition ids p = true → path.count ids p A ≤ n := by
  obtain ⟨w1, w2, hr, hn⟩ := setup_mem_call hc h
  have hreg := setup_registry h init_registry
  simp only [builderCall.run] at hr
  split at hr
  · rename_i hv
    simp only [Option.some.injEq] at hr
    subst hr
    refine ⟨hreg A (hn A hv).1, ?_⟩
    intro ids p hp
    have h2 := (hn A hv).2.2.1 ids p hp
    simp only [step.atMost, Function.update_same, holds_addCondition, Bool.and_eq_true,
      decide_eq_true_eq] at h2
    exact h2.2
  · exact absurd hr (by simp)

theorem setup_atLeast {calls : List builderCall} {w : world} {A : Nat} {n : Int}
    (h : setup calls world.init = some w) (hc : builderCall.atLeast A n ∈ calls) :
    A ∈ w.s.path ∧
      ∀ ids p, holds (w.mem A).postCondition ids p = true → n ≤ path.count ids p A := by
  obtain ⟨w1, w2, hr, hn⟩ := setup_mem_call hc h
  have hreg := setup_registry h init_registry
  simp only [builderCall.run] at hr
  split at hr
  · rename_i hv
    simp only [Option.some.injEq] at hr
    subst hr
    refine ⟨hreg A (hn A hv).1, ?_⟩
    intro ids p hp
    have h2 := (hn A hv).2.2.2 ids p hp
    simp only [step.atLeast, Function.update_same, holds_addCondition, Bool.and_eq_true,
      decide_eq_true_eq] at h2
    exact h2.2
  · exact absurd hr (by simp)

theorem ids_injective {mem : heap} {reg : path} (h : distinctIds mem reg) {a b : Nat}
    (ha : a ∈ reg) (hb : b ∈ reg) (hab : mem.ids a = mem.ids b) : a = b :=
  List.inj_on_of_nodup_map h ha hb hab

theorem count_concat (ids : Nat → String) (p : path) (S A : Nat) :
    path.count ids (p ++ [S]) A =
      path.count ids p A + (if ids S = ids A then 1 else 0) := by
  rw [count_eq_countP, count_eq_countP, List.countP_append]
  by_cases h : ids S = ids A <;> simp [List.countP_cons, h]

/-! ## Completeness under a sufficient budget -/

theorem reach_cases {mem : heap} {reg p P : path} (h : reach mem reg p P) :
    P = p ∨ ∃ s ∈ reg, admits mem s (p ++ [s]) = true ∧ reach mem reg (p ++ [s]) P := by
  induction h with
  | refl => exact Or.inl rfl
  | @step P0 S0 _ hS ha ih =>
    rcases ih with h1 | ⟨s, hs, hsa, hr⟩
    · subst h1
      exact Or.inr ⟨S0, hS, ha, reach.refl⟩
    · exact Or.inr ⟨s, hs, hsa, reach.step hr hS ha⟩

theorem admissible_reach {mem : heap} {reg : path} :
    ∀ {P : path}, admissible mem reg P → reach mem reg [] P := by
  intro P
  induction P using List.reverseRecOn with
  | nil => intro _; exact reach.refl
  | append_singleton l a ih =>
    intro h
    have hl : admissible mem reg l :=
      ⟨fun e he => h.1 e (List.mem_append_left _ he),
        fun q S hq => h.2 q S (hq.trans (List.prefix_append _ _))⟩
    exact reach.step (ih hl) (h.1 a (by simp)) (h.2 l a (List.prefix_refl _))

theorem foldl_extend_complete (mem : heap) (fuel : Nat) (p reg : path) (F : Finset path)
    (ih : ∀ (st : steps) (q : path) (paths : List path) (G : Finset path), st.path = reg →
      (∀ P, reach mem reg q P → P ∈ G) → (G.card : Int) ≤ st.limit →
      st.limit.toNat ≤ fuel →
      st.limit - G.card ≤ (evaluate mem fuel st q paths).1.limit ∧
        ∀ P, reach mem reg q P → postConditionsMet mem reg P = true →
          P ∈ (evaluate mem fuel st q paths).2) :
    ∀ (l : List Nat), l.Nodup → (∀ s ∈ l, s ∈ reg) →
      (∀ s ∈ l, admits mem s (p ++ [s]) = true → ∀ P, reach mem reg (p ++ [s]) P → P ∈ F) →
      ∀ (st : steps) (paths : List path), st.path = reg →
        ((F.filter (fun P => ∃ s ∈ l, p ++ [s] <+: P)).card : Int) ≤ st.limit →
        st.limit.toNat ≤ fuel →
        st.limit - (F.filter (fun P => ∃ s ∈ l, p ++ [s] <+: P)).card ≤
            (l.foldl (extend mem fuel p) (st, paths)).1.limit ∧
          (∀ P ∈ paths, P ∈ (l.foldl (extend mem fuel p) (st, paths)).2) ∧
          ∀ s ∈ l, admits mem s (p ++ [s]) = true → ∀ P, reach mem reg (p ++ [s]) P →
            postConditionsMet mem reg P = true →
            P ∈ (l.foldl (extend mem fuel p) (st, paths)).2 := by
  intro l
  induction l with
  | nil =>
    intro _ _ _ st paths _ _ _
    refine ⟨by simp, fun P hP => hP, ?_⟩
    intro s hs
    exact absurd hs (List.not_mem_nil _)
  | cons s l ihl =>
    intro hnd hreg hF st paths hst hcard hfuel
    rw [List.nodup_cons] at hnd
    have hreg2 : ∀ t ∈ l, t ∈ reg := fun t ht => hreg t (List.mem_cons_of_mem _ ht)
    have hF2 : ∀ t ∈ l, admits mem t (p ++ [t]) = true →
        ∀ P, reach mem reg (p ++ [t]) P → P ∈ F :=
      fun t ht => hF t (List.mem_cons_of_mem _ ht)
    have hsplit : (F.filter (fun P => ∃ t ∈ s :: l, p ++ [t] <+: P)).card =
        (F.filter (fun P => p ++ [s] <+: P)).card +
          (F.filter (fun P => ∃ t ∈ l, p ++ [t] <+: P)).card := by
      rw [← Finset.card_union_of_disjoint]
      · congr 1
        ext P
        simp only [Finset.mem_filter, Finset.mem_union, List.mem_cons, exists_eq_or_imp]
        tauto
      · rw [Finset.disjoint_left]
        intro P h1 h2
        simp only [Finset.mem_filter] at h1 h2
        obtain ⟨t, ht, htP⟩ := h2.2
        exact hnd.1 (snoc_isPrefix_inj h1.2 htP ▸ ht)
    rw [hsplit] at hcard ⊢
    push_cast at hcard ⊢
    rw [List.foldl_cons]
    by_cases ha : admits mem s (p ++ [s]) = true
    · have hx : extend mem fuel p (st, paths) s = evaluate mem fuel st (p ++ [s]) paths := by
        simp [extend, ha]
      rw [hx]
      have hG : ∀ P, reach mem reg (p ++ [s]) P →
          P ∈ F.filter (fun P => p ++ [s] <+: P) := by
        intro P hP
        exact Finset.mem_filter.2 ⟨hF s (List.mem_cons_self _ _) ha P hP, reach_isPrefix hP⟩
      have hnn : (0 : Int) ≤ ((F.filter (fun P => ∃ t ∈ l, p ++ [t] <+: P)).card : Int) :=
        Int.natCast_nonneg _
      obtain ⟨c1, c2⟩ := ih st (p ++ [s]) paths _ hst hG (by omega) hfuel
      obtain ⟨s1, s2, new1, e1, -, -⟩ := hst ▸ evaluate_sound mem fuel st (p ++ [s]) paths
      obtain ⟨d1, d2, d3⟩ := ihl hnd.2 hreg2 hF2 (evaluate mem fuel st (p ++ [s]) paths).1
        (evaluate mem fuel st (p ++ [s]) paths).2 s1 (by omega) (by omega)
      have heta : ((evaluate mem fuel st (p ++ [s]) paths).1,
          (evaluate mem fuel st (p ++ [s]) paths).2) =
          evaluate mem fuel st (p ++ [s]) paths := rfl
      rw [heta] at d1 d2 d3
      refine ⟨by omega, ?_, ?_⟩
      · intro P hP
        exact d2 P (by rw [e1]; exact List.mem_append_left _ hP)
      · intro t ht hta P hr hc
        rcases List.mem_cons.1 ht with h1 | h1
        · subst h1
          exact d2 P (c2 P hr hc)
        · exact d3 t h1 hta P hr hc
    · have hx : extend mem fuel p (st, paths) s = (st, paths) := by
        simp [extend, ha]
      rw [hx]
      have hnn : (0 : Int) ≤ ((F.filter (fun P => p ++ [s] <+: P)).card : Int) :=
        Int.natCast_nonneg _
      obtain ⟨d1, d2, d3⟩ := ihl hnd.2 hreg2 hF2 st paths hst (by omega) hfuel
      refine ⟨by omega, d2, ?_⟩
      intro t ht hta P hr hc
      rcases List.mem_cons.1 ht with h1 | h1
      · subst h1
        exact absurd hta ha
      · exact d3 t h1 hta P hr hc

theorem evaluate_complete (mem : heap) (reg : path) (hnd : reg.Nodup) :
    ∀ (fuel : Nat) (st : steps) (q : path) (paths : List path) (G : Finset path),
      st.path = reg → (∀ P, reach mem reg q P → P ∈ G) → (G.card : Int) ≤ st.limit →
      st.limit.toNat ≤ fuel →
      st.limit - G.card ≤ (evaluate mem fuel st q paths).1.limit ∧
        ∀ P, reach mem reg q P → postConditionsMet mem reg P = true →
          P ∈ (evaluate mem fuel st q paths).2 := by
  intro fuel
  induction fuel with
  | zero =>
    intro st q paths G _ hG hcard hfuel
    have hq : 0 < G.card := Finset.card_pos.2 ⟨q, hG q reach.refl⟩
    omega
  | succ fuel ih =>
    intro st q paths G hst hG hcard hfuel
    subst hst
    have hq : 0 < G.card := Finset.card_pos.2 ⟨q, hG q reach.refl⟩
    have h0 : ¬ st.limit ≤ 0 := by omega
    rw [evaluate_succ, if_neg h0]
    have hle : (G.filter (fun P => ∃ s ∈ st.path, q ++ [s] <+: P)).card + 1 ≤ G.card := by
      have h1 : G.filter (fun P => ∃ s ∈ st.path, q ++ [s] <+: P) ⊆ G.erase q := by
        intro P hP
        simp only [Finset.mem_filter] at hP
        refine Finset.mem_erase.2 ⟨?_, hP.1⟩
        rintro rfl
        obtain ⟨t, -, ht⟩ := hP.2
        have := ht.length_le
        simp at this
      have h2 := Finset.card_le_card h1
      rw [Finset.card_erase_of_mem (hG q reach.refl)] at h2
      omega
    obtain ⟨d1, d2, d3⟩ := foldl_extend_complete mem fuel q st.path G ih st.path hnd
      (fun _ h => h)
      (fun s hs ha P hP => hG P (reach_trans (reach.step reach.refl hs ha) hP))
      ⟨st.path, st.limit - 1⟩ paths rfl (by show _ ≤ st.limit - 1; omega)
      (by show (st.limit - 1).toNat ≤ fuel; omega)
    have d1b : st.limit - 1 - (G.filter (fun P => ∃ s ∈ st.path, q ++ [s] <+: P)).card ≤
        (st.path.foldl (extend mem fuel q) (⟨st.path, st.limit - 1⟩, paths)).1.limit := d1
    obtain ⟨g1, -, -⟩ := foldl_extend_sound mem fuel q st.path
      (fun st2 r paths2 h => h ▸ evaluate_sound mem fuel st2 r paths2) st.path
      ⟨st.path, st.limit - 1⟩ paths (fun _ h => h) rfl
    rw [g1]
    have hmem : ∀ P, reach mem st.path q P → postConditionsMet mem st.path P = true →
        P ≠ q →
        P ∈ (st.path.foldl (extend mem fuel q) (⟨st.path, st.limit - 1⟩, paths)).2 := by
      intro P hr hc hne
      rcases reach_cases hr with h1 | ⟨t, ht, hta, hr2⟩
      · exact absurd h1 hne
      · exact d3 t ht hta P hr2 hc
    by_cases hc : postConditionsMet mem st.path q = true
    · rw [if_pos hc]
      refine ⟨by
        show _ ≤ (st.path.foldl (extend mem fuel q) (⟨st.path, st.limit - 1⟩, paths)).1.limit
        omega, ?_⟩
      intro P hr hcP
      show P ∈ _ ++ [q]
      by_cases hPq : P = q
      · simp [hPq]
      · exact List.mem_append_left _ (hmem P hr hcP hPq)
    · rw [if_neg hc]
      refine ⟨by omega, ?_⟩
      intro P hr hcP
      by_cases hPq : P = q
      · rw [hPq] at hcP
        exact absurd hcP hc
      · exact hmem P hr hcP hPq

/-! ## Unconstrained registries -/

theorem evaluate_limit_nonpos (mem : heap) (fuel : Nat) (st : steps) (p : path)
    (paths : List path) (h : st.limit ≤ 0) : evaluate mem fuel st p paths = (st, paths) := by
  cases fuel with
  | zero => rfl
  | succ fuel => rw [evaluate_succ, if_pos h]

theorem foldl_extend_nonpos (mem : heap) (fuel : Nat) (p : path) :
    ∀ (l : List Nat) (st : steps) (paths : List path), st.limit ≤ 0 →
      l.foldl (extend mem fuel p) (st, paths) = (st, paths) := by
  intro l
  induction l with
  | nil => intro st paths _; rfl
  | cons s l ih =>
    intro st paths h
    rw [List.foldl_cons]
    have hx : extend mem fuel p (st, paths) s = (st, paths) := by
      unfold extend
      split
      · exact evaluate_limit_nonpos mem fuel st _ paths h
      · rfl
    rw [hx]
    exact ih st paths h

theorem range_reverse_map_succ (g : Nat → path) (m : Nat) :
    (List.range (m + 1)).reverse.map g =
      (List.range m).reverse.map (fun k => g (k + 1)) ++ [g 0] := by
  rw [List.range_succ_eq_map]
  simp [List.map_reverse, Function.comp_def]

theorem evaluate_unconstrained (mem : heap) (s0 : Nat) (rest : path)
    (hun : ∀ S ∈ s0 :: rest, (mem S).condition = none ∧ (mem S).postCondition = none) :
    ∀ (fuel n : Nat) (p : path) (paths : List path), n ≤ fuel →
      evaluate mem fuel ⟨s0 :: rest, (n : Int)⟩ p paths =
        (⟨s0 :: rest, 0⟩,
          paths ++ (List.range n).reverse.map (fun k => p ++ List.replicate k s0)) := by
  have hpost : ∀ P, postConditionsMet mem (s0 :: rest) P = true := by
    intro P
    unfold postConditionsMet
    rw [List.all_eq_true]
    intro S hS
    simp [completes, (hun S hS).2]
  have hadm : admits mem s0 = fun _ => true := by
    funext x
    simp [admits, (hun s0 (List.mem_cons_self _ _)).1]
  intro fuel
  induction fuel with
  | zero =>
    intro n p paths hn
    have : n = 0 := by omega
    subst this
    simp [evaluate_zero]
  | succ f ih =>
    intro n p paths hn
    cases n with
    | zero =>
      rw [evaluate_limit_nonpos _ _ _ _ _ (by simp)]
      simp
    | succ m =>
      have h0 : ¬ ((⟨s0 :: rest, ((m + 1 : Nat) : Int)⟩ : steps).limit ≤ 0) := by
        show ¬ (((m + 1 : Nat) : Int) ≤ 0)
        omega
      rw [evaluate_succ, if_neg h0]
      have hm : (((m + 1 : Nat) : Int) - 1) = (m : Int) := by push_cast; ring
      have hfold : (s0 :: rest).foldl (extend mem f p)
          ((⟨s0 :: rest, ((m + 1 : Nat) : Int) - 1⟩ : steps), paths) =
          (⟨s0 :: rest, 0⟩,
            paths ++ (List.range m).reverse.map (fun k => (p ++ [s0]) ++ List.replicate k s0)) := by
        rw [List.foldl_cons, hm]
        have hx : extend mem f p ((⟨s0 :: rest, (m : Int)⟩ : steps), paths) s0 =
            evaluate mem f ⟨s0 :: rest, (m : Int)⟩ (p ++ [s0]) paths := by
          simp [extend, hadm]
        rw [hx, ih m (p ++ [s0]) paths (by omega)]
        exact foldl_extend_nonpos mem f p rest _ _ (le_refl _)
      show (if postConditionsMet mem
            ((s0 :: rest).foldl (extend mem f p) (⟨s0 :: rest, ((m + 1 : Nat) : Int) - 1⟩, paths)).1.path p
        then (((s0 :: rest).foldl (extend mem f p) (⟨s0 :: rest, ((m + 1 : Nat) : Int) - 1⟩, paths)).1,
          ((s0 :: rest).foldl (extend mem f p) (⟨s0 :: rest, ((m + 1 : Nat) : Int) - 1⟩, paths)).2 ++ [p])
        else (s0 :: rest).foldl (extend mem f p) (⟨s0 :: rest, ((m + 1 : Nat) : Int) - 1⟩, paths)) = _
      rw [hfold]
      simp only [hpost, if_true]
      rw [range_reverse_map_succ]
      simp [List.replicate_succ]

/-! ## Further facts used by the claims -/

theorem reach_count_le {mem : heap} {reg : path} {A : Nat} {n : Int} (hn : 0 ≤ n)
    (hA : A ∈ reg) (hids : distinctIds mem reg)
    (hcond : ∀ p, holds (mem A).condition mem.ids p = true → path.count mem.ids p A ≤ n)
    {P : path} (h : reach mem reg [] P) : path.count mem.ids P A ≤ n := by
  induction h with
  | refl => simpa [path.count] using hn
  | @step P0 S0 _ hS ha ih =>
    by_cases hSA : S0 = A
    · subst hSA
      rw [admits_eq_holds] at ha
      exact hcond _ ha
    · have hid : mem.ids S0 ≠ mem.ids A := fun hc => hSA (ids_injective hids hS hA hc)
      rw [count_concat, if_neg hid, add_zero]
      exact ih

theorem example_admissible (p : path)
    (h : admissible exampleWorld.mem exampleWorld.s.path p) :
    p = [] ∨ p = [0] ∨ p = [0, 1] := by
  have hreg : ∀ e ∈ p, e = 0 ∨ e = 1 := by
    intro e he
    have h1 := h.1 e he
    have hp : exampleWorld.s.path = [0, 1] := by decide
    rw [hp] at h1
    simpa using h1
  match p, h, hreg with
  | [], _, _ => exact Or.inl rfl
  | [a], h, hreg =>
    rcases hreg a (by simp) with rfl | rfl
    · exact Or.inr (Or.inl rfl)
    · exact absurd (h.2 [] 1 ⟨[], rfl⟩) (by decide)
  | [a, b], h, hreg =>
    rcases hreg a (by simp) with rfl | rfl
    · rcases hreg b (by simp) with rfl | rfl
      · exact absurd (h.2 [0] 0 ⟨[], rfl⟩) (by decide)
      · exact Or.inr (Or.inr rfl)
    · exact absurd (h.2 [] 1 ⟨[b], rfl⟩) (by decide)
  | a :: b :: c :: rest, h, hreg =>
    rcases hreg a (by simp) with rfl | rfl
    · rcases hreg b (by simp) with rfl | rfl
      · exact absurd (h.2 [0] 0 ⟨c :: rest, rfl⟩) (by decide)
      · rcases hreg c (by simp) with rfl | rfl
        · exact absurd (h.2 [0, 1] 0 ⟨rest, rfl⟩) (by decide)
        · exact absurd (h.2 [0, 1] 1 ⟨rest, rfl⟩) (by decide)
    · exact absurd (h.2 [] 1 ⟨b :: c :: rest, rfl⟩) (by decide)

theorem example_admissible_subset :
    {p | admissible exampleWorld.mem exampleWorld.s.path p} ⊆
      ((({[], [0], [0, 1]} : Finset path)) : Set path) := by
  intro p hp
  rcases example_admissible p hp with h | h | h <;> simp [h]

theorem example_admissible_finite :
    {p | admissible exampleWorld.mem exampleWorld.s.path p}.Finite :=
  Set.Finite.subset (Finset.finite_toSet _) example_admissible_subset

theorem example_admissible_ncard :
    ({p | admissible exampleWorld.mem exampleWorld.s.path p}.ncard : Int) ≤ 10 := by
  have h1 := Set.ncard_le_ncard example_admissible_subset (Finset.finite_toSet _)
  rw [Set.ncard_coe_Finset] at h1
  have h2 : ({[], [0], [0, 1]} : Finset path).card = 3 := by decide
  omega

theorem sequenceCount_succ (N L : Nat) :
    sequenceCount N (L + 1) = sequenceCount N L + N ^ (L + 1) := by
  unfold sequenceCount
  rw [List.range_succ, List.map_append, List.sum_append]
  simp

theorem sequenceCount_base (N : Nat) : sequenceCount N 0 = 1 := by
  simp [sequenceCount, List.range_succ]

theorem sequenceCount_pos (N L : Nat) : 1 ≤ sequenceCount N L := by
  induction L with
  | zero => rw [sequenceCount_base]
  | succ L ih => rw [sequenceCount_succ]; omega

theorem sequenceCount_zero (L : Nat) : sequenceCount 0 L = 1 := by
  induction L with
  | zero => rw [sequenceCount_base]
  | succ L ih => rw [sequenceCount_succ, ih]; simp

theorem sequenceCount_ge (N L : Nat) (hN : 1 ≤ N) : L + 1 ≤ sequenceCount N L := by
  induction L with
  | zero => rw [sequenceCount_base]
  | succ L ih =>
    rw [sequenceCount_succ]
    have := Nat.one_le_pow (L + 1) N hN
    omega

theorem evaluate_nodup (mem : heap) (s : steps) (B : Int) (hnd : s.path.Nodup) :
    (steps.evaluate mem s B).2.Nodup :=
  List.Pairwise.imp (fun h hab => h (by rw [hab])) (evaluate_pairwise mem s B hnd)

theorem steps_evaluate_nil (mem : heap) (s : steps) (B : Int) (hs : s.path = [])
    (hB : 1 ≤ B) : (steps.evaluate mem s B).2 = [[]] := by
  unfold steps.evaluate
  obtain ⟨k, hk⟩ : ∃ k, B.toNat = k + 1 := ⟨B.toNat - 1, by omega⟩
  rw [hk, evaluate_succ, hs]
  have h0 : ¬ ((⟨[], B⟩ : steps).limit ≤ 0) := by
    show ¬ (B ≤ 0)
    omega
  rw [if_neg h0]
  simp [postConditionsMet]

theorem steps_evaluate_unconstrained (mem : heap) (s : steps) (B : Int) (s0 : Nat)
    (rest : path) (hs : s.path = s0 :: rest) (hun : unconstrained mem s.path) (hB : 0 ≤ B) :
    (steps.evaluate mem s B).2 =
      (List.range B.toNat).reverse.map (fun k => List.replicate k s0) := by
  unfold steps.evaluate
  rw [hs] at hun ⊢
  have hBn : B = ((B.toNat : Nat) : Int) := (Int.toNat_of_nonneg hB).symm
  have h := evaluate_unconstrained mem s0 rest hun B.toNat B.toNat [] [] (le_refl _)
  rw [← hBn] at h
  rw [h]
  simp

theorem countP_eq_one_of_mem {l : List path} (hnd : l.Nodup) {P : path} (h : P ∈ l) :
    l.countP (fun Q => decide (Q = P)) = 1 :=
  List.count_eq_one_of_mem hnd h

theorem pairWorld_unconstrained : unconstrained pairWorld.mem pairWorld.s.path := by
  intro S hS
  have hp : pairWorld.s.path = [0, 1] := by decide
  rw [hp] at hS
  have h2 : S = 0 ∨ S = 1 := by simpa using hS
  rcases h2 with rfl | rfl <;> exact ⟨rfl, rfl⟩

theorem singleWorld_unconstrained : unconstrained singleWorld.mem singleWorld.s.path := by
  intro S hS
  have hp : singleWorld.s.path = [0] := by decide
  rw [hp] at hS
  have h2 : S = 0 := by simpa using hS
  subst h2
  exact ⟨rfl, rfl⟩

theorem extend_limit_le (mem : heap) (fuel : Nat) (p : path) (st : steps)
    (paths : List path) (s : Nat) :
    (extend mem fuel p (st, paths) s).1.limit ≤ st.limit := by
  unfold extend
  split
  · exact (evaluate_sound mem fuel st (p ++ [s]) paths).2.1
  · exact le_refl _

theorem foldl_extend_fuel (mem : heap) (a b : Nat) (p : path)
    (ih : ∀ (st : steps) (q : path) (paths : List path), st.limit.toNat ≤ a →
      st.limit.toNat ≤ b → evaluate mem a st q paths = evaluate mem b st q paths) :
    ∀ (l : List Nat) (st : steps) (paths : List path), st.limit.toNat ≤ a →
      st.limit.toNat ≤ b →
      l.foldl (extend mem a p) (st, paths) = l.foldl (extend mem b p) (st, paths) := by
  intro l
  induction l with
  | nil => intro st paths _ _; rfl
  | cons s l ihl =>
    intro st paths ha hb
    rw [List.foldl_cons, List.foldl_cons]
    have hx : extend mem a p (st, paths) s = extend mem b p (st, paths) s := by
      unfold extend
      split
      · exact ih st (p ++ [s]) paths ha hb
      · rfl
    rw [hx]
    have hle := extend_limit_le mem b p st paths s
    exact ihl (extend mem b p (st, paths) s).1 (extend mem b p (st, paths) s).2
      (by omega) (by omega)

/-- The depth bound is immaterial once it is at least the remaining budget: the recursion
of `evaluate` never runs deeper than `steps.limit`. -/
theorem evaluate_fuel (mem : heap) :
    ∀ (a b : Nat) (st : steps) (p : path) (paths : List path), st.limit.toNat ≤ a →
      st.limit.toNat ≤ b → evaluate mem a st p paths = evaluate mem b st p paths := by
  intro a
  induction a with
  | zero =>
    intro b st p paths ha _
    rw [evaluate_limit_nonpos mem 0 st p paths (by omega),
      evaluate_limit_nonpos mem b st p paths (by omega)]
  | succ a ih =>
    intro b st p paths ha hb
    cases b with
    | zero =>
      rw [evaluate_limit_nonpos mem (a + 1) st p paths (by omega),
        evaluate_limit_nonpos mem 0 st p paths (by omega)]
    | succ b =>
      rw [evaluate_succ, evaluate_succ]
      by_cases h0 : st.limit ≤ 0
      · rw [if_pos h0, if_pos h0]
      · rw [if_neg h0, if_neg h0]
        rw [foldl_extend_fuel mem a b p (fun st2 q paths2 h1 h2 => ih b st2 q paths2 h1 h2)
          st.path ⟨st.path, st.limit - 1⟩ paths
          (by show (st.limit - 1).toNat ≤ a; omega)
          (by show (st.limit - 1).toNat ≤ b; omega)]

/-! ## Budget accounting, monotonicity and the checked depth bound -/

theorem foldl_extend_eta (mem : heap) (fuel : Nat) (p : path) (l : List Nat)
    (x : steps × List path) :
    l.foldl (extend mem fuel p) (x.1, x.2) = l.foldl (extend mem fuel p) x := rfl

theorem foldl_extend_length (mem : heap) (fuel : Nat) (p : path)
    (ih : ∀ (st : steps) (q : path) (paths : List path),
      ((evaluate mem fuel st q paths).2.length : Int) + (evaluate mem fuel st q paths).1.limit ≤
          paths.length + st.limit ∧
        (0 ≤ st.limit → 0 ≤ (evaluate mem fuel st q paths).1.limit)) :
    ∀ (l : List Nat) (st : steps) (paths : List path),
      (((l.foldl (extend mem fuel p) (st, paths)).2.length : Int) +
          (l.foldl (extend mem fuel p) (st, paths)).1.limit ≤ paths.length + st.limit) ∧
        (0 ≤ st.limit → 0 ≤ (l.foldl (extend mem fuel p) (st, paths)).1.limit) := by
  intro l
  induction l with
  | nil => intro st paths; exact ⟨le_refl _, fun h => h⟩
  | cons s l ihl =>
    intro st paths
    rw [List.foldl_cons]
    have hx : ((extend mem fuel p (st, paths) s).2.length : Int) +
        (extend mem fuel p (st, paths) s).1.limit ≤ paths.length + st.limit ∧
        (0 ≤ st.limit → 0 ≤ (extend mem fuel p (st, paths) s).1.limit) := by
      unfold extend
      split
      · exact ih st (p ++ [s]) paths
      · exact ⟨le_refl _, fun h => h⟩
    have h2 := ihl (extend mem fuel p (st, paths) s).1 (extend mem fuel p (st, paths) s).2
    rw [foldl_extend_eta] at h2
    exact ⟨by omega, fun h => h2.2 (hx.2 h)⟩

theorem evaluate_length (mem : heap) :
    ∀ (fuel : Nat) (st : steps) (p : path) (paths : List path),
      ((evaluate mem fuel st p paths).2.length : Int) + (evaluate mem fuel st p paths).1.limit ≤
          paths.length + st.limit ∧
        (0 ≤ st.limit → 0 ≤ (evaluate mem fuel st p paths).1.limit) := by
  intro fuel
  induction fuel with
  | zero => intro st p paths; exact ⟨le_refl _, fun h => h⟩
  | succ fuel ih =>
    intro st p paths
    rw [evaluate_succ]
    by_cases h0 : st.limit ≤ 0
    · rw [if_pos h0]
      exact ⟨le_refl _, fun h => h⟩
    · rw [if_neg h0]
      have hf := foldl_extend_length mem fuel p ih st.path ⟨st.path, st.limit - 1⟩ paths
      have hf1 : ((st.path.foldl (extend mem fuel p)
          (⟨st.path, st.limit - 1⟩, paths)).2.length : Int) +
          (st.path.foldl (extend mem fuel p) (⟨st.path, st.limit - 1⟩, paths)).1.limit ≤
          paths.length + (st.limit - 1) := hf.1
      have hf2 : 0 ≤ st.limit - 1 →
          0 ≤ (st.path.foldl (extend mem fuel p)
            (⟨st.path, st.limit - 1⟩, paths)).1.limit := hf.2
      split
      · refine ⟨?_, fun _ => hf2 (by omega)⟩
        simp only [List.length_append, List.length_singleton]
        push_cast
        omega
      · exact ⟨by omega, fun _ => hf2 (by omega)⟩

theorem foldl_extend_path (mem : heap) (fuel : Nat) (p : path) (l : List Nat) (st : steps)
    (paths : List path) : (l.foldl (extend mem fuel p) (st, paths)).1.path = st.path := by
  induction l generalizing st paths with
  | nil => rfl
  | cons s l ihl =>
    rw [List.foldl_cons, ← foldl_extend_eta, ihl]
    unfold extend
    split
    · exact (evaluate_sound mem fuel st (p ++ [s]) paths).1
    · rfl

theorem foldl_extend_mono (mem : heap) (fuel : Nat) (p : path)
    (ih : ∀ (st st2 : steps) (q : path) (paths paths2 : List path), st.path = st2.path →
      st.limit ≤ st2.limit → List.Sublist paths paths2 →
      List.Sublist (evaluate mem fuel st q paths).2 (evaluate mem fuel st2 q paths2).2 ∧
        (evaluate mem fuel st q paths).1.limit ≤ (evaluate mem fuel st2 q paths2).1.limit) :
    ∀ (l : List Nat) (st st2 : steps) (paths paths2 : List path), st.path = st2.path →
      st.limit ≤ st2.limit → List.Sublist paths paths2 →
      List.Sublist (l.foldl (extend mem fuel p) (st, paths)).2
          (l.foldl (extend mem fuel p) (st2, paths2)).2 ∧
        (l.foldl (extend mem fuel p) (st, paths)).1.limit ≤
          (l.foldl (extend mem fuel p) (st2, paths2)).1.limit := by
  intro l
  induction l with
  | nil => intro st st2 paths paths2 _ hl hs; exact ⟨hs, hl⟩
  | cons s l ihl =>
    intro st st2 paths paths2 hp hl hs
    rw [List.foldl_cons, List.foldl_cons]
    have hx : (extend mem fuel p (st, paths) s).1.path =
          (extend mem fuel p (st2, paths2) s).1.path ∧
        List.Sublist (extend mem fuel p (st, paths) s).2
          (extend mem fuel p (st2, paths2) s).2 ∧
        (extend mem fuel p (st, paths) s).1.limit ≤
          (extend mem fuel p (st2, paths2) s).1.limit := by
      unfold extend
      split
      · refine ⟨?_, ih st st2 (p ++ [s]) paths paths2 hp hl hs⟩
        rw [(evaluate_sound mem fuel st (p ++ [s]) paths).1,
          (evaluate_sound mem fuel st2 (p ++ [s]) paths2).1]
        exact hp
      · exact ⟨hp, hs, hl⟩
    have h2 := ihl (extend mem fuel p (st, paths) s).1 (extend mem fuel p (st2, paths2) s).1
      (extend mem fuel p (st, paths) s).2 (extend mem fuel p (st2, paths2) s).2
      hx.1 hx.2.2 hx.2.1
    rw [foldl_extend_eta, foldl_extend_eta] at h2
    exact h2

theorem evaluate_mono (mem : heap) :
    ∀ (fuel : Nat) (st st2 : steps) (p : path) (paths paths2 : List path),
      st.path = st2.path → st.limit ≤ st2.limit → List.Sublist paths paths2 →
      List.Sublist (evaluate mem fuel st p paths).2 (evaluate mem fuel st2 p paths2).2 ∧
        (evaluate mem fuel st p paths).1.limit ≤ (evaluate mem fuel st2 p paths2).1.limit := by
  intro fuel
  induction fuel with
  | zero => intro st st2 p paths paths2 _ hl hs; exact ⟨hs, hl⟩
  | succ fuel ih =>
    intro st st2 p paths paths2 hp hl hs
    by_cases h0 : st.limit ≤ 0
    · rw [evaluate_limit_nonpos mem (fuel + 1) st p paths h0]
      obtain ⟨-, -, new, e, -, -⟩ := evaluate_sound mem (fuel + 1) st2 p paths2
      refine ⟨?_, ?_⟩
      · rw [e]
        exact hs.trans (List.sublist_append_left _ _)
      · by_cases h2 : st2.limit ≤ 0
        · rw [evaluate_limit_nonpos mem (fuel + 1) st2 p paths2 h2]
          exact hl
        · have := (evaluate_length mem (fuel + 1) st2 p paths2).2 (by omega)
          show st.limit ≤ _
          omega
    · have h2 : ¬ st2.limit ≤ 0 := by omega
      rw [evaluate_succ, evaluate_succ, if_neg h0, if_neg h2]
      have hf := foldl_extend_mono mem fuel p ih st.path ⟨st.path, st.limit - 1⟩
        ⟨st2.path, st2.limit - 1⟩ paths paths2 hp (by show st.limit - 1 ≤ st2.limit - 1; omega)
        hs
      rw [foldl_extend_path, foldl_extend_path]
      rw [← hp]
      rw [← hp] at hf
      by_cases hc : postConditionsMet mem st.path p = true
      · rw [if_pos hc, if_pos hc]
        exact ⟨List.Sublist.append hf.1 (List.Sublist.refl _), hf.2⟩
      · rw [if_neg hc, if_neg hc]
        exact hf

theorem evaluateChecked_zero (mem : heap) (st : steps) (p : path) (paths : List path) :
    evaluateChecked mem 0 st p paths = if st.limit ≤ 0 then some (st, paths) else none := rfl

theorem evaluateChecked_succ (mem : heap) (fuel : Nat) (st : steps) (p : path)
    (paths : List path) :
    evaluateChecked mem (fuel + 1) st p paths =
      if st.limit ≤ 0 then some (st, paths)
      else
        match st.path.foldlM
          (fun st s =>
            if admits mem s (p ++ [s]) then evaluateChecked mem fuel st.1 (p ++ [s]) st.2
            else some st)
          ((⟨st.path, st.limit - 1⟩ : steps), paths) with
        | none => none
        | some st => if postConditionsMet mem st.1.path p then some (st.1, st.2 ++ [p])
          else some st := rfl

theorem foldlM_checked (mem : heap) (fuel : Nat) (p : path)
    (ih : ∀ (st : steps) (q : path) (paths : List path), st.limit.toNat ≤ fuel →
      evaluateChecked mem fuel st q paths = some (evaluate mem fuel st q paths)) :
    ∀ (l : List Nat) (st : steps) (paths : List path), st.limit.toNat ≤ fuel →
      l.foldlM
          (fun st s =>
            if admits mem s (p ++ [s]) then evaluateChecked mem fuel st.1 (p ++ [s]) st.2
            else some st)
          (st, paths) =
        some (l.foldl (extend mem fuel p) (st, paths)) := by
  intro l
  induction l with
  | nil => intro st paths _; rfl
  | cons s l ihl =>
    intro st paths hf
    rw [List.foldlM_cons, List.foldl_cons]
    have hle := extend_limit_le mem fuel p st paths s
    have hx : (if admits mem s (p ++ [s]) then evaluateChecked mem fuel st (p ++ [s]) paths
        else some (st, paths)) = some (extend mem fuel p (st, paths) s) := by
      unfold extend
      split
      · exact ih st (p ++ [s]) paths hf
      · rfl
    show (if admits mem s (p ++ [s]) then evaluateChecked mem fuel st (p ++ [s]) paths
        else some (st, paths)) >>= _ = _
    rw [hx]
    show List.foldlM _ _ l = _
    rw [← foldl_extend_eta]
    exact ihl (extend mem fuel p (st, paths) s).1 (extend mem fuel p (st, paths) s).2
      (by omega)

theorem evaluateChecked_eq (mem : heap) :
    ∀ (fuel : Nat) (st : steps) (p : path) (paths : List path), st.limit.toNat ≤ fuel →
      evaluateChecked mem fuel st p paths = some (evaluate mem fuel st p paths) := by
  intro fuel
  induction fuel with
  | zero =>
    intro st p paths hf
    rw [evaluateChecked_zero, if_pos (by omega)]
    rfl
  | succ fuel ih =>
    intro st p paths hf
    rw [evaluateChecked_succ, evaluate_succ]
    by_cases h0 : st.limit ≤ 0
    · rw [if_pos h0, if_pos h0]
    · rw [if_neg h0, if_neg h0]
      rw [foldlM_checked mem fuel p ih st.path ⟨st.path, st.limit - 1⟩ paths
        (by show (st.limit - 1).toNat ≤ fuel; omega)]
      simp only []
      split <;> rfl

/-! ## Prefixes of accepted paths and the order of branches -/

theorem exists_snoc_of_isPrefix_ne {p Q : path} (h : p <+: Q) (hne : Q ≠ p) :
    ∃ s, p ++ [s] <+: Q := by
  obtain ⟨t, rfl⟩ := h
  cases t with
  | nil => simp at hne
  | cons a t => exact ⟨a, ⟨t, by simp⟩⟩

theorem foldl_extend_closed (mem : heap) (fuel : Nat) (p reg : path)
    (ih : ∀ (st : steps) (q : path) (paths new : List path), st.path = reg →
      (evaluate mem fuel st q paths).2 = paths ++ new →
      ∀ P ∈ new, ∀ Q, q <+: Q → Q <+: P → postConditionsMet mem reg Q = true → Q ∈ new) :
    ∀ (l : List Nat) (st : steps) (paths new : List path), (∀ s ∈ l, s ∈ reg) →
      st.path = reg → (l.foldl (extend mem fuel p) (st, paths)).2 = paths ++ new →
      ∀ P ∈ new, ∀ Q s2, p ++ [s2] <+: Q → Q <+: P →
        postConditionsMet mem reg Q = true → Q ∈ new := by
  intro l
  induction l with
  | nil =>
    intro st paths new _ _ h P hP
    have hn : new = [] := by simpa using h
    rw [hn] at hP
    exact absurd hP (List.not_mem_nil _)
  | cons s l ihl =>
    intro st paths new hl hst h P hP Q s2 hs2 hQP hc
    have hl2 : ∀ t ∈ l, t ∈ reg := fun t ht => hl t (List.mem_cons_of_mem _ ht)
    rw [List.foldl_cons] at h
    by_cases ha : admits mem s (p ++ [s]) = true
    · have hx : extend mem fuel p (st, paths) s = evaluate mem fuel st (p ++ [s]) paths := by
        simp [extend, ha]
      rw [hx, ← foldl_extend_eta] at h
      obtain ⟨h1, -, new1, e1, hs1, -⟩ := hst ▸ evaluate_sound mem fuel st (p ++ [s]) paths
      obtain ⟨-, -, new2, e2, hsnd2, -⟩ := foldl_extend_sound mem fuel p reg
        (fun st2 q paths2 h => h ▸ evaluate_sound mem fuel st2 q paths2) l
        (evaluate mem fuel st (p ++ [s]) paths).1 (evaluate mem fuel st (p ++ [s]) paths).2
        hl2 h1
      have hnew : new = new1 ++ new2 := by
        rw [e2, e1, List.append_assoc] at h
        exact (List.append_cancel_left h).symm
      rw [hnew] at hP ⊢
      rcases List.mem_append.1 hP with hP1 | hP2
      · have hsP : p ++ [s] <+: P := reach_isPrefix (hs1 P hP1).1
        have hss : s2 = s := snoc_isPrefix_inj (hs2.trans hQP) hsP
        rw [hss] at hs2
        exact List.mem_append_left _ (ih st (p ++ [s]) paths new1 hst e1 P hP1 Q hs2 hQP hc)
      · exact List.mem_append_right _
          (ihl _ _ new2 hl2 h1 e2 P hP2 Q s2 hs2 hQP hc)
    · have hx : extend mem fuel p (st, paths) s = (st, paths) := by
        simp [extend, ha]
      rw [hx] at h
      exact ihl st paths new hl2 hst h P hP Q s2 hs2 hQP hc

theorem evaluate_closed (mem : heap) :
    ∀ (fuel : Nat) (st : steps) (p : path) (paths new : List path),
      (evaluate mem fuel st p paths).2 = paths ++ new →
      ∀ P ∈ new, ∀ Q, p <+: Q → Q <+: P → postConditionsMet mem st.path Q = true →
        Q ∈ new := by
  intro fuel
  induction fuel with
  | zero =>
    intro st p paths new h P hP
    have hn : new = [] := by simpa [evaluate_zero] using h
    rw [hn] at hP
    exact absurd hP (List.not_mem_nil _)
  | succ fuel ih =>
    intro st p paths new h P hP Q hpQ hQP hc
    rw [evaluate_succ] at h
    by_cases h0 : st.limit ≤ 0
    · rw [if_pos h0] at h
      have hn : new = [] := by simpa using h
      rw [hn] at hP
      exact absurd hP (List.not_mem_nil _)
    · rw [if_neg h0] at h
      obtain ⟨g1, -, newf, e, hs, -⟩ := foldl_extend_sound mem fuel p st.path
        (fun st2 q paths2 h => h ▸ evaluate_sound mem fuel st2 q paths2) st.path
        ⟨st.path, st.limit - 1⟩ paths (fun _ h => h) rfl
      have hcl := foldl_extend_closed mem fuel p st.path
        (fun st2 q paths2 new2 hst2 => by rw [← hst2]; exact ih st2 q paths2 new2) st.path
        ⟨st.path, st.limit - 1⟩ paths newf (fun _ h => h) rfl e
      rw [g1] at h
      by_cases hcp : postConditionsMet mem st.path p = true
      · rw [if_pos hcp] at h
        have h2 : (st.path.foldl (extend mem fuel p) (⟨st.path, st.limit - 1⟩, paths)).2 ++
            [p] = paths ++ new := h
        rw [e, List.append_assoc] at h2
        have hnew : new = newf ++ [p] := (List.append_cancel_left h2).symm
        rw [hnew] at hP ⊢
        by_cases hQp : Q = p
        · rw [hQp]
          exact List.mem_append_right _ (List.mem_singleton_self _)
        · obtain ⟨s2, hs2⟩ := exists_snoc_of_isPrefix_ne hpQ hQp
          rcases List.mem_append.1 hP with hP1 | hP2
          · exact List.mem_append_left _ (hcl P hP1 Q s2 hs2 hQP hc)
          · rw [List.mem_singleton.1 hP2] at hQP
            exact absurd (hQP.eq_of_length (le_antisymm hQP.length_le hpQ.length_le)) hQp
      · rw [if_neg hcp] at h
        rw [e] at h
        have hnew : new = newf := (List.append_cancel_left h).symm
        rw [hnew] at hP ⊢
        by_cases hQp : Q = p
        · rw [hQp] at hc
          exact absurd hc hcp
        · obtain ⟨s2, hs2⟩ := exists_snoc_of_isPrefix_ne hpQ hQp
          exact hcl P hP Q s2 hs2 hQP hc

theorem getElem?_unique {reg : path} (hnd : reg.Nodup) {i j x : Nat}
    (hi : reg[i]? = some x) (hj : reg[j]? = some x) : i = j :=
  List.getElem?_inj (List.getElem?_eq_some.1 hi).1 hnd (hi.trans hj.symm)

theorem addedBefore_asymm {reg : path} (hnd : reg.Nodup) {a b : Nat}
    (h : addedBefore reg a b) : ¬ addedBefore reg b a := by
  obtain ⟨m, n, hmn, hm, hn⟩ := h
  rintro ⟨m2, n2, hmn2, hm2, hn2⟩
  have h1 := getElem?_unique hnd hm hn2
  have h2 := getElem?_unique hnd hn hm2
  omega

theorem addedBefore_ne {reg : path} (hnd : reg.Nodup) {a b : Nat}
    (h : addedBefore reg a b) : a ≠ b := by
  intro hab
  subst hab
  exact addedBefore_asymm hnd h h

theorem pairwise_not_addedBefore {reg : path} (hnd : reg.Nodup) :
    reg.Pairwise (fun a b => ¬ addedBefore reg b a) := by
  rw [List.pairwise_iff_getElem]
  intro i j hi hj hij
  exact addedBefore_asymm hnd
    ⟨i, j, hij, List.getElem?_eq_getElem hi, List.getElem?_eq_getElem hj⟩

theorem branch_point {p c X Y tX tY : path} {s t a b : Nat} (hX : p ++ [s] <+: X)
    (hY : p ++ [t] <+: Y) (hst : s ≠ t) (eX : X = c ++ b :: tX) (eY : Y = c ++ a :: tY)
    (hab : a ≠ b) : a = t ∧ b = s := by
  have cX : c ++ [b] <+: X := ⟨tX, by simp [eX]⟩
  have cY : c ++ [a] <+: Y := ⟨tY, by simp [eY]⟩
  have pX : p <+: X := (List.prefix_append _ _).trans hX
  have pY : p <+: Y := (List.prefix_append _ _).trans hY
  have c1 : c <+: X := (List.prefix_append _ _).trans cX
  have c2 : c <+: Y := (List.prefix_append _ _).trans cY
  rcases lt_trichotomy c.length p.length with h | h | h
  · have h1 : c ++ [b] <+: p := List.prefix_of_prefix_length_le cX pX (by simp; omega)
    have h2 : c ++ [a] <+: p := List.prefix_of_prefix_length_le cY pY (by simp; omega)
    exact absurd (snoc_isPrefix_inj h2 h1) hab
  · have hcp : c = p := (List.prefix_of_prefix_length_le c1 pX (le_of_eq h)).eq_of_length h
    subst hcp
    exact ⟨snoc_isPrefix_inj cY hY, snoc_isPrefix_inj cX hX⟩
  · have h1 : p ++ [s] <+: c := List.prefix_of_prefix_length_le hX c1 (by simp; omega)
    have h2 : p ++ [t] <+: c := List.prefix_of_prefix_length_le hY c2 (by simp; omega)
    exact absurd (snoc_isPrefix_inj h1 h2) hst

theorem foldl_extend_order (mem : heap) (fuel : Nat) (p reg : path) (hnd : reg.Nodup)
    (ih : ∀ (st : steps) (q : path) (paths new : List path), st.path = reg →
      (evaluate mem fuel st q paths).2 = paths ++ new →
      new.Pairwise (fun X Y => ¬ branchBefore reg Y X)) :
    ∀ (l : List Nat) (st : steps) (paths new : List path), (∀ s ∈ l, s ∈ reg) →
      l.Pairwise (fun a b => ¬ addedBefore reg b a) → l.Nodup → st.path = reg →
      (l.foldl (extend mem fuel p) (st, paths)).2 = paths ++ new →
      new.Pairwise (fun X Y => ¬ branchBefore reg Y X) := by
  intro l
  induction l with
  | nil =>
    intro st paths new _ _ _ _ h
    have hn : new = [] := by simpa using h
    rw [hn]
    exact List.Pairwise.nil
  | cons s l ihl =>
    intro st paths new hl hpw hlnd hst h
    have hl2 : ∀ t ∈ l, t ∈ reg := fun t ht => hl t (List.mem_cons_of_mem _ ht)
    rw [List.pairwise_cons] at hpw
    rw [List.nodup_cons] at hlnd
    rw [List.foldl_cons] at h
    by_cases ha : admits mem s (p ++ [s]) = true
    · have hx : extend mem fuel p (st, paths) s = evaluate mem fuel st (p ++ [s]) paths := by
        simp [extend, ha]
      rw [hx, ← foldl_extend_eta] at h
      obtain ⟨h1, -, new1, e1, hs1, -⟩ := hst ▸ evaluate_sound mem fuel st (p ++ [s]) paths
      obtain ⟨-, -, new2, e2, hsnd2, -⟩ := foldl_extend_sound mem fuel p reg
        (fun st2 q paths2 h => h ▸ evaluate_sound mem fuel st2 q paths2) l
        (evaluate mem fuel st (p ++ [s]) paths).1 (evaluate mem fuel st (p ++ [s]) paths).2
        hl2 h1
      have hnew : new = new1 ++ new2 := by
        rw [e2, e1, List.append_assoc] at h
        exact (List.append_cancel_left h).symm
      rw [hnew, List.pairwise_append]
      refine ⟨ih st (p ++ [s]) paths new1 hst e1, ihl _ _ new2 hl2 hpw.2 hlnd.2 h1 e2, ?_⟩
      intro X hX Y hY hbr
      obtain ⟨c, a, b, tY, tX, eY, eX, hab⟩ := hbr
      obtain ⟨t, ht, -, hr, -⟩ := hsnd2 Y hY
      have hst2 : s ≠ t := fun hh => hlnd.1 (hh ▸ ht)
      obtain ⟨h3, h4⟩ := branch_point (reach_isPrefix (hs1 X hX).1) (reach_isPrefix hr) hst2
        eX eY (addedBefore_ne hnd hab)
      rw [h3, h4] at hab
      exact hpw.1 t ht hab
    · have hx : extend mem fuel p (st, paths) s = (st, paths) := by
        simp [extend, ha]
      rw [hx] at h
      exact ihl st paths new hl2 hpw.2 hlnd.2 hst h

theorem evaluate_order (mem : heap) (reg : path) (hnd : reg.Nodup) :
    ∀ (fuel : Nat) (st : steps) (p : path) (paths new : List path), st.path = reg →
      (evaluate mem fuel st p paths).2 = paths ++ new →
      new.Pairwise (fun X Y => ¬ branchBefore reg Y X) := by
  intro fuel
  induction fuel with
  | zero =>
    intro st p paths new _ h
    have hn : new = [] := by simpa [evaluate_zero] using h
    rw [hn]
    exact List.Pairwise.nil
  | succ fuel ih =>
    intro st p paths new hst h
    subst hst
    rw [evaluate_succ] at h
    by_cases h0 : st.limit ≤ 0
    · rw [if_pos h0] at h
      have hn : new = [] := by simpa using h
      rw [hn]
      exact List.Pairwise.nil
    · rw [if_neg h0] at h
      obtain ⟨g1, -, newf, e, hs, -⟩ := foldl_extend_sound mem fuel p st.path
        (fun st2 q paths2 h => h ▸ evaluate_sound mem fuel st2 q paths2) st.path
        ⟨st.path, st.limit - 1⟩ paths (fun _ h => h) rfl
      have hord := foldl_extend_order mem fuel p st.path hnd ih st.path
        ⟨st.path, st.limit - 1⟩ paths newf (fun _ h => h) (pairwise_not_addedBefore hnd) hnd
        rfl e
      rw [g1] at h
      by_cases hcp : postConditionsMet mem st.path p = true
      · rw [if_pos hcp] at h
        have h2 : (st.path.foldl (extend mem fuel p) (⟨st.path, st.limit - 1⟩, paths)).2 ++
            [p] = paths ++ new := h
        rw [e, List.append_assoc] at h2
        have hnew : new = newf ++ [p] := (List.append_cancel_left h2).symm
        rw [hnew, List.pairwise_append]
        refine ⟨hord, List.pairwise_singleton _ _, ?_⟩
        intro X hX Y hY hbr
        rw [List.mem_singleton.1 hY] at hbr
        obtain ⟨c, a, b, tY, tX, eY, eX, hab⟩ := hbr
        obtain ⟨t, -, -, hr, -⟩ := hs X hX
        have pX : p <+: X := (List.prefix_append _ _).trans (reach_isPrefix hr)
        have cX : c ++ [b] <+: X := ⟨tX, by simp [eX]⟩
        have cp : c ++ [a] <+: p := ⟨tY, by simp [eY]⟩
        exact addedBefore_ne hnd hab (snoc_isPrefix_inj (cp.trans pX) cX)
      · rw [if_neg hcp] at h
        rw [e] at h
        have hnew : new = newf := (List.append_cancel_left h).symm
        rw [hnew]
        exact hord

/-! ## The scenario of `main` -/

theorem admissible_after {mem : heap} {reg P : path} {A X i : Nat}
    (hids : distinctIds mem reg) (hX : X ∈ reg) (hne : X ≠ A)
    (hcond : ∀ p, holds (mem A).condition mem.ids p = true → 1 ≤ path.count mem.ids p X)
    (hadm : admissible mem reg P) (hi : P[i]? = some A) : ∃ j, j < i ∧ P[j]? = some X := by
  have h1 := hcond _ (admissible_at hadm hi)
  rw [count_eq_countP] at h1
  have h2 : 0 < (P.take i ++ [A]).countP (fun e => decide (mem.ids e = mem.ids X)) := by
    omega
  obtain ⟨e, he, hid⟩ := List.countP_pos_iff.1 h2
  have hid2 : mem.ids e = mem.ids X := by simpa using hid
  have heP : e ∈ P := (take_concat_isPrefix hi).subset he
  have heX : e = X := ids_injective hids (hadm.1 e heP) hX hid2
  subst heX
  rcases List.mem_append.1 he with h3 | h3
  · obtain ⟨j, hj⟩ := List.mem_iff_getElem?.1 h3
    have hji : j < i := by
      by_contra hcon
      rw [List.getElem?_take_eq_none (Nat.le_of_not_lt hcon)] at hj
      exact absurd hj (by simp)
    exact ⟨j, hji, by rw [← hj, List.getElem?_take_of_lt hji]⟩
  · exact absurd (List.mem_singleton.1 h3) hne

theorem admissible_before {mem : heap} {reg P : path} {A X i j : Nat}
    (hcond : ∀ p, holds (mem A).condition mem.ids p = true → path.count mem.ids p X = 0)
    (hadm : admissible mem reg P) (hi : P[i]? = some X) (hj : P[j]? = some A) : j < i := by
  have h1 := hcond _ (admissible_at hadm hj)
  rw [count_eq_countP] at h1
  have h2 : (P.take j ++ [A]).countP (fun e => decide (mem.ids e = mem.ids X)) = 0 := by
    omega
  by_contra hcon
  have hij : i < j + 1 := by omega
  have hmem : X ∈ P.take (j + 1) :=
    List.mem_iff_getElem?.2 ⟨i, by rw [List.getElem?_take_of_lt hij, hi]⟩
  have hts : P.take (j + 1) = P.take j ++ [A] := by
    rw [List.take_succ, hj]
    rfl
  rw [hts] at hmem
  have := List.countP_eq_zero.1 h2 X hmem
  simp at this

theorem count_eq_occurrences {mem : heap} {reg P : path} {A : Nat}
    (hids : distinctIds mem reg) (hA : A ∈ reg) (hP : ∀ e ∈ P, e ∈ reg) :
    path.count mem.ids P A = ((occurrences P A : Nat) : Int) := by
  rw [count_eq_countP]
  unfold occurrences
  congr 1
  apply List.countP_congr
  intro e he
  simp only [decide_eq_true_eq]
  exact ⟨fun h => ids_injective hids (hP e he) hA h, fun h => by rw [h]⟩

theorem mem_evaluate_complete {mem : heap} {s : steps} {B : Int} {P : path} {A : Nat}
    (hP : P ∈ (steps.evaluate mem s B).2) (hA : A ∈ s.path) :
    holds (mem A).postCondition mem.ids P = true := by
  have h := (mem_evaluate_reach hP).2
  unfold postConditionsMet at h
  have h2 := List.all_eq_true.1 h A hA
  rw [completes_eq_holds] at h2
  exact h2

theorem steps_evaluate_sublist (mem : heap) (s : steps) (B B2 : Int) (h : B ≤ B2) :
    List.Sublist (steps.evaluate mem s B).2 (steps.evaluate mem s B2).2 := by
  unfold steps.evaluate
  rw [evaluate_fuel mem B.toNat B2.toNat ⟨s.path, B⟩ [] [] (le_refl _)
    (by show B.toNat ≤ B2.toNat; omega)]
  exact (evaluate_mono mem B2.toNat ⟨s.path, B⟩ ⟨s.path, B2⟩ [] [] [] rfl h
    (List.Sublist.refl _)).1

theorem mainWorld_setup : setup mainCalls world.init = some mainWorld := rfl

theorem mainWorld_path : mainWorld.s.path = [0, 1, 2, 3, 4, 5] := by decide

theorem mainWorld_distinctIds : distinctIds mainWorld.mem mainWorld.s.path := by
  unfold distinctIds
  decide

theorem main_occurrences {P : path} (hP : P ∈ main) (A : Nat) (lo hi : Int)
    (hA : A ∈ mainWorld.s.path) (hhi : 0 ≤ hi)
    (hmost : builderCall.atMost A hi ∈ mainCalls)
    (hleast : builderCall.atLeast A lo ∈ mainCalls) :
    lo ≤ occurrences P A ∧ (occurrences P A : Int) ≤ hi := by
  have hr := (mem_evaluate_reach hP).1
  have hadm := reach_nil_admissible hr
  have hc := count_eq_occurrences mainWorld_distinctIds hA hadm.1
  have h1 := reach_count_le hhi hA mainWorld_distinctIds
    (fun p hp => (setup_atMost mainWorld_setup hmost).2 _ p hp) hr
  have h2 := (setup_atLeast mainWorld_setup hleast).2 _ _ (mem_evaluate_complete hP hA)
  rw [hc] at h1 h2
  exact ⟨h2, h1⟩

theorem main_head {P : path} (hP : P ∈ main) : P.head? = some 0 := by
  have hadm := reach_nil_admissible (mem_evaluate_reach hP).1
  have hocc := (main_occurrences hP 0 1 1 (by decide) (by decide)
    (by simp [mainCalls]) (by simp [mainCalls])).1
  cases P with
  | nil => simp [occurrences] at hocc
  | cons e t =>
    have he := hadm.1 e (List.mem_cons_self _ _)
    rw [mainWorld_path] at he
    have had := hadm.2 [] e ⟨t, rfl⟩
    have h6 : e = 0 ∨ e = 1 ∨ e = 2 ∨ e = 3 ∨ e = 4 ∨ e = 5 := by simpa using he
    rcases h6 with rfl | rfl | rfl | rfl | rfl | rfl
    · rfl
    · exact absurd had (by decide)
    · exact absurd had (by decide)
    · exact absurd had (by decide)
    · exact absurd had (by decide)
    · exact absurd had (by decide)

/-! ## The claims -/

/-- C1, completeness under a sufficient budget: for a registry of pairwise distinct steps
and a budget `B`, if the set of admissible paths is finite with at most `B` members, then
every admissible path that satisfies the completion predicate of every registry step is in
the sequence returned by `steps.evaluate(B)`. -/
theorem completeness (mem : heap) (s : steps) (B : Int) (P : path) (hnd : s.path.Nodup)
    (hfin : {p | admissible mem s.path p}.Finite)
    (hB : ({p | admissible mem s.path p}.ncard : Int) ≤ B)
    (hadm : admissible mem s.path P)
    (hcomp : ∀ S ∈ s.path,
      (mem S).postCondition = none ∨
        ∃ c, (mem S).postCondition = some c ∧ c mem.ids P = true) :
    P ∈ (steps.evaluate mem s B).2 := by
  have hG : ∀ Q, reach mem s.path [] Q → Q ∈ hfin.toFinset := by
    intro Q hQ
    exact (Set.Finite.mem_toFinset hfin).2 (reach_nil_admissible hQ)
  have hcard : (hfin.toFinset.card : Int) ≤ B := by
    rw [← Set.ncard_eq_toFinset_card _ hfin]
    exact hB
  have hpost : postConditionsMet mem s.path P = true := by
    unfold postConditionsMet
    rw [List.all_eq_true]
    intro S hS
    rw [completes_eq_holds]
    exact (holds_iff _ _ _).2 (hcomp S hS)
  exact (evaluate_complete mem s.path hnd B.toNat ⟨s.path, B⟩ [] [] hfin.toFinset rfl hG
    hcard (le_refl _)).2 P (admissible_reach hadm) hpost

theorem completeness_witness :
    (exampleWorld.s.path.Nodup ∧
      {p | admissible exampleWorld.mem exampleWorld.s.path p}.Finite ∧
      ({p | admissible exampleWorld.mem exampleWorld.s.path p}.ncard : Int) ≤ 10 ∧
      admissible exampleWorld.mem exampleWorld.s.path [0, 1] ∧
      (∀ S ∈ exampleWorld.s.path,
        (exampleWorld.mem S).postCondition = none ∨
          ∃ c, (exampleWorld.mem S).postCondition = some c ∧
            c exampleWorld.mem.ids [0, 1] = true)) ∧
      [0, 1] ∈ (steps.evaluate exampleWorld.mem exampleWorld.s 10).2 :=
  have hadm : admissible exampleWorld.mem exampleWorld.s.path [0, 1] :=
    reach_nil_admissible
      (reach.step (reach.step reach.refl (by decide) (by decide)) (by decide) (by decide))
  have hcomp : ∀ S ∈ exampleWorld.s.path,
      (exampleWorld.mem S).postCondition = none ∨
        ∃ c, (exampleWorld.mem S).postCondition = some c ∧
          c exampleWorld.mem.ids [0, 1] = true := by
    intro S hS
    have h : completes exampleWorld.mem S [0, 1] = true := by
      have hp : exampleWorld.s.path = [0, 1] := by decide
      rw [hp] at hS
      have h2 : S = 0 ∨ S = 1 := by simpa using hS
      rcases h2 with rfl | rfl <;> decide
    rw [completes_eq_holds] at h
    exact (holds_iff _ _ _).1 h
  ⟨⟨by decide, example_admissible_finite, example_admissible_ncard, hadm, hcomp⟩,
    completeness exampleWorld.mem exampleWorld.s 10 [0, 1] (by decide)
      example_admissible_finite example_admissible_ncard hadm hcomp⟩

/-- C2, admission soundness: every path returned by `steps.evaluate` consists of registry
steps, and for every non-empty prefix `q ++ [S]` of it the step `S` has no admission
predicate or its admission predicate holds on `q ++ [S]`. -/
theorem admission_soundness (mem : heap) (s : steps) (B : Int) (P : path)
    (hP : P ∈ (steps.evaluate mem s B).2) :
    (∀ e ∈ P, e ∈ s.path) ∧
      ∀ q S, q ++ [S] <+: P →
        (mem S).condition = none ∨
          ∃ c, (mem S).condition = some c ∧ c mem.ids (q ++ [S]) = true := by
  have hadm := reach_nil_admissible (mem_evaluate_reach hP).1
  refine ⟨hadm.1, ?_⟩
  intro q S hq
  have h := hadm.2 q S hq
  rw [admits_eq_holds] at h
  exact (holds_iff _ _ _).1 h

theorem admission_soundness_witness :
    [0, 1] ∈ (steps.evaluate exampleWorld.mem exampleWorld.s 10).2 ∧
      ((∀ e ∈ [0, 1], e ∈ exampleWorld.s.path) ∧
        ∀ q S, q ++ [S] <+: [0, 1] →
          (exampleWorld.mem S).condition = none ∨
            ∃ c, (exampleWorld.mem S).condition = some c ∧
              c exampleWorld.mem.ids (q ++ [S]) = true) :=
  ⟨by decide, admission_soundness exampleWorld.mem exampleWorld.s 10 [0, 1] (by decide)⟩

/-- C3, completion soundness: for every path `P` returned by `steps.evaluate` and every
step `S` of the registry, whether or not `S` occurs in `P`, `S` has no completion predicate
or its completion predicate holds on `P`. -/
theorem completion_soundness (mem : heap) (s : steps) (B : Int) (P : path)
    (hP : P ∈ (steps.evaluate mem s B).2) :
    ∀ S ∈ s.path,
      (mem S).postCondition = none ∨
        ∃ c, (mem S).postCondition = some c ∧ c mem.ids P = true := by
  intro S hS
  have h := (mem_evaluate_reach hP).2
  unfold postConditionsMet at h
  have h2 := List.all_eq_true.1 h S hS
  rw [completes_eq_holds] at h2
  exact (holds_iff _ _ _).1 h2

theorem completion_soundness_witness :
    [0, 1] ∈ (steps.evaluate exampleWorld.mem exampleWorld.s 10).2 ∧
      ∀ S ∈ exampleWorld.s.path,
        (exampleWorld.mem S).postCondition = none ∨
          ∃ c, (exampleWorld.mem S).postCondition = some c ∧
            c exampleWorld.mem.ids [0, 1] = true :=
  ⟨by decide, completion_soundness exampleWorld.mem exampleWorld.s 10 [0, 1] (by decide)⟩

/-- The ordering `after` does guarantee: when the set-up applied `after(X)` to `A`, alone or
among any other calls, with `X` a step of the same registry other than `A` and the registry
steps carrying pairwise distinct identifiers, then in every path returned by
`steps.evaluate` each position holding `A` has a strictly earlier position holding `X`. -/
theorem after_constraint (calls : List builderCall) (w : world) (A X : Nat) (B : Int)
    (P : path) (i : Nat) (hsetup : setup calls world.init = some w)
    (hcall : builderCall.after A X ∈ calls) (hne : X ≠ A)
    (hids : distinctIds w.mem w.s.path) (hP : P ∈ (steps.evaluate w.mem w.s B).2)
    (hi : P[i]? = some A) : ∃ j, j < i ∧ P[j]? = some X := by
  obtain ⟨-, hX, hcond⟩ := setup_after hsetup hcall
  have hadm := reach_nil_admissible (mem_evaluate_reach hP).1
  have h1 := hcond _ _ (admissible_at hadm hi)
  rw [count_eq_countP] at h1
  have h2 : 0 < (P.take i ++ [A]).countP (fun e => decide (w.mem.ids e = w.mem.ids X)) := by
    omega
  obtain ⟨e, he, hid⟩ := List.countP_pos_iff.1 h2
  have hid2 : w.mem.ids e = w.mem.ids X := by simpa using hid
  have heP : e ∈ P := (take_concat_isPrefix hi).subset he
  have heX : e = X := ids_injective hids (hadm.1 e heP) hX hid2
  subst heX
  rcases List.mem_append.1 he with h3 | h3
  · obtain ⟨j, hj⟩ := List.mem_iff_getElem?.1 h3
    have hji : j < i := by
      by_contra hcon
      rw [List.getElem?_take_eq_none (Nat.le_of_not_lt hcon)] at hj
      exact absurd hj (by simp)
    exact ⟨j, hji, by rw [← hj, List.getElem?_take_of_lt hji]⟩
  · exact absurd (List.mem_singleton.1 h3) hne

theorem after_constraint_witness :
    (setup exampleCalls world.init = some exampleWorld ∧
      builderCall.after 1 0 ∈ exampleCalls ∧ (0 : Nat) ≠ 1 ∧
      distinctIds exampleWorld.mem exampleWorld.s.path ∧
      [0, 1] ∈ (steps.evaluate exampleWorld.mem exampleWorld.s 10).2 ∧
      ([0, 1] : path)[1]? = some 1) ∧
      ∃ j, j < 1 ∧ ([0, 1] : path)[j]? = some 0 :=
  ⟨⟨rfl, by simp [exampleCalls], by decide, by unfold distinctIds; decide, by decide, rfl⟩,
    after_constraint exampleCalls exampleWorld 1 0 10 [0, 1] 1 rfl (by simp [exampleCalls])
      (by decide) (by unfold distinctIds; decide) (by decide) rfl⟩

/-- C4 at a failing input: the registry holds the steps `a` and `b`, a step `x` named `b`
is created on another registry, and `a.after(x)` is applied.  The registry's identifiers are
pairwise distinct and `x` is a step other than `a`, yet `steps.evaluate(4)` returns
`[b, a]`: its position `1` holds `a` and no earlier position holds `x`, because `count`
compares identifiers and the registry step `b` passes for `x`. -/
theorem after_foreign_step :
    foreignSteps.path = [0, 1] ∧ distinctIds foreignMem foreignSteps.path ∧ (2 : Nat) ≠ 0 ∧
      foreignMem.ids 2 = "b" ∧ 2 ∉ foreignSteps.path ∧
      (steps.evaluate foreignMem foreignSteps 4).2 = [[1, 0, 0], [1, 0], [1], []] ∧
      ([1, 0] : path)[1]? = some 0 ∧ ¬ ∃ j, j < 1 ∧ ([1, 0] : path)[j]? = some 2 := by
  refine ⟨by decide, by unfold distinctIds; decide, by decide, by decide, by decide,
    by decide, rfl, ?_⟩
  rintro ⟨j, hj, h⟩
  have hj0 : j = 0 := by omega
  subst hj0
  exact absurd h (by decide)

/-- C5, `before(X)` on `A`: when the set-up applied `before(X)` to `A`, alone or among any
other calls, then in every path returned by `steps.evaluate` no occurrence of `A` is at or
after an occurrence of `X`: if `X` is at position `i` and `A` at position `j` then `j < i`.
This holds whether or not the identifiers are pairwise distinct. -/
theorem before_constraint (calls : List builderCall) (w : world) (A X : Nat) (B : Int)
    (P : path) (i j : Nat) (hsetup : setup calls world.init = some w)
    (hcall : builderCall.before A X ∈ calls) (hP : P ∈ (steps.evaluate w.mem w.s B).2)
    (hi : P[i]? = some X) (hj : P[j]? = some A) : j < i := by
  obtain ⟨-, -, hcond⟩ := setup_before hsetup hcall
  have hadm := reach_nil_admissible (mem_evaluate_reach hP).1
  have h1 := hcond _ _ (admissible_at hadm hj)
  rw [count_eq_countP] at h1
  have h2 : (P.take j ++ [A]).countP (fun e => decide (w.mem.ids e = w.mem.ids X)) = 0 := by
    omega
  by_contra hcon
  have hij : i < j + 1 := by omega
  have hmem : X ∈ P.take (j + 1) :=
    List.mem_iff_getElem?.2 ⟨i, by rw [List.getElem?_take_of_lt hij, hi]⟩
  have hts : P.take (j + 1) = P.take j ++ [A] := by
    rw [List.take_succ, hj]
    rfl
  rw [hts] at hmem
  have := List.countP_eq_zero.1 h2 X hmem
  simp at this

theorem before_constraint_witness :
    (setup exampleCalls world.init = some exampleWorld ∧
      builderCall.before 0 1 ∈ exampleCalls ∧
      [0, 1] ∈ (steps.evaluate exampleWorld.mem exampleWorld.s 10).2 ∧
      ([0, 1] : path)[1]? = some 1 ∧ ([0, 1] : path)[0]? = some 0) ∧ 0 < 1 :=
  ⟨⟨rfl, by simp [exampleCalls], by decide, rfl, rfl⟩,
    before_constraint exampleCalls exampleWorld 0 1 10 [0, 1] 1 0 rfl
      (by simp [exampleCalls]) (by decide) rfl rfl⟩

/-- C6, `atMost(n)` on `A`: when the set-up applied `atMost(n)` with `n ≥ 0` to `A`, alone
or among any other calls, and the registry steps carry pairwise distinct identifiers, every
path `P` returned by `steps.evaluate` has `count(A, P) ≤ n`. -/
theorem atMost_constraint (calls : List builderCall) (w : world) (A : Nat) (n : Int)
    (B : Int) (P : path) (hsetup : setup calls world.init = some w)
    (hcall : builderCall.atMost A n ∈ calls) (hn : 0 ≤ n)
    (hids : distinctIds w.mem w.s.path) (hP : P ∈ (steps.evaluate w.mem w.s B).2) :
    path.count w.mem.ids P A ≤ n := by
  obtain ⟨hA, hcond⟩ := setup_atMost hsetup hcall
  exact reach_count_le hn hA hids (fun p hp => hcond _ p hp) (mem_evaluate_reach hP).1

theorem atMost_constraint_witness :
    (setup exampleCalls world.init = some exampleWorld ∧
      builderCall.atMost 0 1 ∈ exampleCalls ∧ (0 : Int) ≤ 1 ∧
      distinctIds exampleWorld.mem exampleWorld.s.path ∧
      [0, 1] ∈ (steps.evaluate exampleWorld.mem exampleWorld.s 10).2) ∧
      path.count exampleWorld.mem.ids [0, 1] 0 ≤ 1 :=
  ⟨⟨rfl, by simp [exampleCalls], by decide, by unfold distinctIds; decide, by decide⟩,
    atMost_constraint exampleCalls exampleWorld 0 1 10 [0, 1] rfl (by simp [exampleCalls])
      (by decide) (by unfold distinctIds; decide) (by decide)⟩

/-- C7, `atLeast(n)` on `A`: when the set-up applied `atLeast(n)`, for any integer `n`, to
`A`, alone or among any other calls, every path `P` returned by `steps.evaluate` has
`count(A, P) ≥ n`. -/
theorem atLeast_constraint (calls : List builderCall) (w : world) (A : Nat) (n : Int)
    (B : Int) (P : path) (hsetup : setup calls world.init = some w)
    (hcall : builderCall.atLeast A n ∈ calls)
    (hP : P ∈ (steps.evaluate w.mem w.s B).2) : n ≤ path.count w.mem.ids P A := by
  obtain ⟨hA, hcond⟩ := setup_atLeast hsetup hcall
  have h := (mem_evaluate_reach hP).2
  unfold postConditionsMet at h
  have h2 := List.all_eq_true.1 h A hA
  rw [completes_eq_holds] at h2
  exact hcond _ _ h2

theorem atLeast_constraint_witness :
    (setup exampleCalls world.init = some exampleWorld ∧
      builderCall.atLeast 0 1 ∈ exampleCalls ∧
      [0, 1] ∈ (steps.evaluate exampleWorld.mem exampleWorld.s 10).2) ∧
      1 ≤ path.count exampleWorld.mem.ids [0, 1] 0 :=
  ⟨⟨rfl, by simp [exampleCalls], by decide⟩,
    atLeast_constraint exampleCalls exampleWorld 0 1 10 [0, 1] rfl (by simp [exampleCalls])
      (by decide)⟩

/-- C8, budget zero or negative: for every registry and every budget `B ≤ 0`,
`steps.evaluate(B)` returns the empty sequence, whatever the completion predicates say
about the empty path; indeed a call of `evaluate` with such a remaining budget returns the
accepted paths it was given, at every recursion depth bound. -/
theorem budget_nonpositive (mem : heap) (s : steps) (B : Int) (hB : B ≤ 0) :
    (steps.evaluate mem s B).2 = [] ∧
      ∀ (fuel : Nat) (p : path) (paths : List path),
        (evaluate mem fuel ⟨s.path, B⟩ p paths).2 = paths := by
  have h : ∀ (fuel : Nat) (p : path) (paths : List path),
      (evaluate mem fuel ⟨s.path, B⟩ p paths).2 = paths := by
    intro fuel p paths
    cases fuel with
    | zero => rfl
    | succ fuel =>
      rw [evaluate_succ]
      have h0 : (⟨s.path, B⟩ : steps).limit ≤ 0 := hB
      rw [if_pos h0]
  exact ⟨h _ _ _, h⟩

theorem budget_nonpositive_witness :
    (0 : Int) ≤ 0 ∧
      ((steps.evaluate world.init.mem ⟨[0], 7⟩ 0).2 = [] ∧
        ∀ (fuel : Nat) (p : path) (paths : List path),
          (evaluate world.init.mem fuel ⟨[0], 0⟩ p paths).2 = paths) :=
  ⟨le_refl _, budget_nonpositive world.init.mem ⟨[0], 7⟩ 0 (le_refl _)⟩

/-- C9 as stated fails: on the unconstrained registry of the two steps `a` and `b` with
budget `3 = 2^0 + 2^1` and `L = 1`, the depth-first search spends the whole budget on
`[]`, `[a]` and `[a, a]`, so the sequence `[b]` of length one is not returned. -/
theorem unconstrained_enumeration_counterexample :
    ¬ enumeratesAll pairWorld.mem pairWorld.s 3 1 := by
  intro h
  have h1 := (h (by unfold distinctIds; decide) pairWorld_unconstrained (by decide)).1 [1]
    (by decide) (by decide)
  revert h1
  decide

/-- C9 amended: on an unconstrained registry of `N` steps with pairwise distinct
identifiers and `N^0 + ... + N^L ≤ B`, the sequence returned by `steps.evaluate(B)` holds
no path twice and has at least `N^0 + ... + N^L` entries; when `N ≤ 1` or `L = 0` it holds
every sequence of registry steps of every length from `0` to `L`, each exactly once. -/
theorem unconstrained_enumeration (mem : heap) (s : steps) (B : Int) (L : Nat)
    (hids : distinctIds mem s.path) (hun : unconstrained mem s.path)
    (hB : (sequenceCount s.path.length L : Int) ≤ B) :
    (steps.evaluate mem s B).2.Nodup ∧
      (sequenceCount s.path.length L : Int) ≤ ((steps.evaluate mem s B).2.length : Int) ∧
      (s.path.length ≤ 1 ∨ L = 0 →
        ∀ P : path, (∀ e ∈ P, e ∈ s.path) → P.length ≤ L →
          (steps.evaluate mem s B).2.countP (fun Q => decide (Q = P)) = 1) := by
  have hnd : (steps.evaluate mem s B).2.Nodup :=
    evaluate_nodup mem s B (List.Nodup.of_map _ hids)
  have hpos := sequenceCount_pos s.path.length L
  refine ⟨hnd, ?_, ?_⟩
  · cases hs : s.path with
    | nil =>
      rw [steps_evaluate_nil mem s B hs (by omega)]
      simp [sequenceCount_zero]
    | cons s0 rest =>
      rw [steps_evaluate_unconstrained mem s B s0 rest hs hun (by omega)]
      rw [hs] at hB
      simp only [List.length_map, List.length_reverse, List.length_range]
      omega
  · intro hcase P hP hlen
    apply countP_eq_one_of_mem hnd
    cases hs : s.path with
    | nil =>
      rw [steps_evaluate_nil mem s B hs (by omega)]
      have : P = [] := by
        cases P with
        | nil => rfl
        | cons a t =>
          have := hP a (List.mem_cons_self _ _)
          rw [hs] at this
          exact absurd this (List.not_mem_nil _)
      simp [this]
    | cons s0 rest =>
      rw [steps_evaluate_unconstrained mem s B s0 rest hs hun (by omega)]
      have hge := sequenceCount_ge s.path.length L (by rw [hs]; simp)
      have hrep : P = List.replicate P.length s0 := by
        rw [List.eq_replicate_iff]
        refine ⟨rfl, ?_⟩
        intro e he
        rcases hcase with h1 | h1
        · have hrest : rest = [] := by
            rw [hs] at h1
            cases rest with
            | nil => rfl
            | cons _ _ => simp at h1
          have := hP e he
          rw [hs, hrest] at this
          simpa using this
        · subst h1
          have : P = [] := List.length_eq_zero.1 (Nat.le_zero.1 hlen)
          rw [this] at he
          exact absurd he (List.not_mem_nil _)
      rw [List.mem_map]
      refine ⟨P.length, ?_, hrep.symm⟩
      rw [List.mem_reverse, List.mem_range]
      omega

theorem unconstrained_enumeration_witness :
    (distinctIds singleWorld.mem singleWorld.s.path ∧
      unconstrained singleWorld.mem singleWorld.s.path ∧
      (sequenceCount singleWorld.s.path.length 2 : Int) ≤ 3) ∧
      ((steps.evaluate singleWorld.mem singleWorld.s 3).2.Nodup ∧
        (sequenceCount singleWorld.s.path.length 2 : Int) ≤
          ((steps.evaluate singleWorld.mem singleWorld.s 3).2.length : Int) ∧
        (singleWorld.s.path.length ≤ 1 ∨ 2 = 0 →
          ∀ P : path, (∀ e ∈ P, e ∈ singleWorld.s.path) → P.length ≤ 2 →
            (steps.evaluate singleWorld.mem singleWorld.s 3).2.countP
              (fun Q => decide (Q = P)) = 1)) :=
  ⟨⟨by unfold distinctIds; decide, singleWorld_unconstrained, by decide⟩,
    unconstrained_enumeration singleWorld.mem singleWorld.s 3 2
      (by unfold distinctIds; decide) singleWorld_unconstrained (by decide)⟩

/-- C10, post-order output: for a registry of pairwise distinct steps, whenever `P` and `Q`
both occur in the sequence returned by `steps.evaluate` and `Q` is a proper prefix of
`P`, every occurrence of `P` comes before every occurrence of `Q`. -/
theorem post_order (mem : heap) (s : steps) (B : Int) (P Q : path) (i j : Nat)
    (hnd : s.path.Nodup) (hi : (steps.evaluate mem s B).2[i]? = some P)
    (hj : (steps.evaluate mem s B).2[j]? = some Q) (hpre : Q <+: P) (hne : Q ≠ P) :
    i < j := by
  have pw := evaluate_pairwise mem s B hnd
  rw [List.pairwise_iff_getElem] at pw
  obtain ⟨hi1, hi2⟩ := List.getElem?_eq_some.1 hi
  obtain ⟨hj1, hj2⟩ := List.getElem?_eq_some.1 hj
  by_contra hcon
  rcases Nat.lt_or_eq_of_le (Nat.le_of_not_lt hcon) with hlt | heq
  · have := pw j i hj1 hi1 hlt
    rw [hi2, hj2] at this
    exact this hpre
  · subst heq
    rw [hi2] at hj2
    exact hne hj2.symm

theorem post_order_witness :
    (exampleWorld.s.path.Nodup ∧
      (steps.evaluate exampleWorld.mem exampleWorld.s 10).2[0]? = some [0, 1] ∧
      (steps.evaluate exampleWorld.mem exampleWorld.s 10).2[1]? = some [0] ∧
      ([0] : path) <+: [0, 1] ∧ ([0] : path) ≠ [0, 1]) ∧ 0 < 1 :=
  ⟨⟨by decide, by decide, by decide, by decide, by decide⟩,
    post_order exampleWorld.mem exampleWorld.s 10 [0, 1] [0] 0 1 (by decide) (by decide)
      (by decide) (by decide) (by decide)⟩

/-- C11, the worked scenario: every path `main` computes with budget `10000` has `start`
(address `0`) as its first entry and holds it exactly once; holds `upgradeTwo` (`2`) exactly
once, with an `upgradeOne` (`1`) earlier; holds `mix1` (`4`) exactly once, with an
`upgradeOne` earlier; holds `mix2` (`5`) exactly once, with `mix1` earlier and before every
`finalize` (`3`) that is present; and holds `upgradeOne` once or twice. -/
theorem worked_scenario (P : path) (hP : P ∈ main) :
    (P.head? = some 0 ∧ occurrences P 0 = 1) ∧
      (occurrences P 2 = 1 ∧ ∀ i : Nat, P[i]? = some 2 → ∃ j, j < i ∧ P[j]? = some 1) ∧
      (occurrences P 4 = 1 ∧ ∀ i : Nat, P[i]? = some 4 → ∃ j, j < i ∧ P[j]? = some 1) ∧
      (occurrences P 5 = 1 ∧ (∀ i : Nat, P[i]? = some 5 → ∃ j, j < i ∧ P[j]? = some 4) ∧
        ∀ i j : Nat, P[i]? = some 5 → P[j]? = some 3 → i < j) ∧
      (occurrences P 1 = 1 ∨ occurrences P 1 = 2) := by
  have hadm := reach_nil_admissible (mem_evaluate_reach hP).1
  have o0 := main_occurrences hP 0 1 1 (by decide) (by decide) (by simp [mainCalls])
    (by simp [mainCalls])
  have o1 := main_occurrences hP 1 1 2 (by decide) (by decide) (by simp [mainCalls])
    (by simp [mainCalls])
  have o2 := main_occurrences hP 2 1 1 (by decide) (by decide) (by simp [mainCalls])
    (by simp [mainCalls])
  have o4 := main_occurrences hP 4 1 1 (by decide) (by decide) (by simp [mainCalls])
    (by simp [mainCalls])
  have o5 := main_occurrences hP 5 1 1 (by decide) (by decide) (by simp [mainCalls])
    (by simp [mainCalls])
  have a21 : builderCall.after 2 1 ∈ mainCalls := by simp [mainCalls]
  have a41 : builderCall.after 4 1 ∈ mainCalls := by simp [mainCalls]
  have a54 : builderCall.after 5 4 ∈ mainCalls := by simp [mainCalls]
  have b53 : builderCall.before 5 3 ∈ mainCalls := by simp [mainCalls]
  refine ⟨⟨main_head hP, by omega⟩, ⟨by omega, ?_⟩, ⟨by omega, ?_⟩, ⟨by omega, ?_, ?_⟩,
    by omega⟩
  · intro i hi
    exact admissible_after mainWorld_distinctIds (setup_after mainWorld_setup a21).2.1
      (by decide) (fun p hp => (setup_after mainWorld_setup a21).2.2 _ p hp) hadm hi
  · intro i hi
    exact admissible_after mainWorld_distinctIds (setup_after mainWorld_setup a41).2.1
      (by decide) (fun p hp => (setup_after mainWorld_setup a41).2.2 _ p hp) hadm hi
  · intro i hi
    exact admissible_after mainWorld_distinctIds (setup_after mainWorld_setup a54).2.1
      (by decide) (fun p hp => (setup_after mainWorld_setup a54).2.2 _ p hp) hadm hi
  · intro i j hi hj
    exact admissible_before (fun p hp => (setup_before mainWorld_setup b53).2.2 _ p hp)
      hadm hj hi

theorem worked_scenario_witness :
    [0, 1, 1, 2, 4, 5, 3] ∈ main ∧
      ((([0, 1, 1, 2, 4, 5, 3] : path).head? = some 0 ∧
          occurrences [0, 1, 1, 2, 4, 5, 3] 0 = 1) ∧
        (occurrences [0, 1, 1, 2, 4, 5, 3] 2 = 1 ∧
          ∀ i : Nat, ([0, 1, 1, 2, 4, 5, 3] : path)[i]? = some 2 →
            ∃ j, j < i ∧ ([0, 1, 1, 2, 4, 5, 3] : path)[j]? = some 1) ∧
        (occurrences [0, 1, 1, 2, 4, 5, 3] 4 = 1 ∧
          ∀ i : Nat, ([0, 1, 1, 2, 4, 5, 3] : path)[i]? = some 4 →
            ∃ j, j < i ∧ ([0, 1, 1, 2, 4, 5, 3] : path)[j]? = some 1) ∧
        (occurrences [0, 1, 1, 2, 4, 5, 3] 5 = 1 ∧
          (∀ i : Nat, ([0, 1, 1, 2, 4, 5, 3] : path)[i]? = some 5 →
            ∃ j, j < i ∧ ([0, 1, 1, 2, 4, 5, 3] : path)[j]? = some 4) ∧
          ∀ i j : Nat, ([0, 1, 1, 2, 4, 5, 3] : path)[i]? = some 5 →
            ([0, 1, 1, 2, 4, 5, 3] : path)[j]? = some 3 → i < j) ∧
        (occurrences [0, 1, 1, 2, 4, 5, 3] 1 = 1 ∨ occurrences [0, 1, 1, 2, 4, 5, 3] 1 = 2)) :=
  have hmem : [0, 1, 1, 2, 4, 5, 3] ∈ main :=
    (steps_evaluate_sublist mainWorld.mem mainWorld.s 11 limit (by decide)).subset
      (by decide)
  ⟨hmem, worked_scenario [0, 1, 1, 2, 4, 5, 3] hmem⟩

/-- C12, composition is logical AND: after `addCondition(target, pred)` the target holds on
a path exactly when the former target (an absent one counting as true) and `pred` both
hold; hence after each of `after`, `before`, `atMost` and `atLeast` the predicate of the
step accepts only paths it accepted before the call. -/
theorem composition_and (t : Option stepPredicate) (pred : stepPredicate)
    (ids : Nat → String) (p : path) (mem : heap) (s x : Nat) (n : Int) :
    (holds (step.addCondition t pred) ids p = true ↔
        holds t ids p = true ∧ pred ids p = true) ∧
      (holds ((step.after mem s x) s).condition ids p = true →
        holds (mem s).condition ids p = true) ∧
      (holds ((step.before mem s x) s).condition ids p = true →
        holds (mem s).condition ids p = true) ∧
      (holds ((step.atMost mem s n) s).condition ids p = true →
        holds (mem s).condition ids p = true) ∧
      (holds ((step.atLeast mem s n) s).postCondition ids p = true →
        holds (mem s).postCondition ids p = true) := by
  refine ⟨by rw [holds_addCondition, Bool.and_eq_true], ?_, ?_, ?_, ?_⟩
  · exact (narrows_update_condition mem s s _).2.1 ids p
  · exact (narrows_update_condition mem s s _).2.1 ids p
  · exact (narrows_update_condition mem s s _).2.1 ids p
  · exact (narrows_update_postCondition mem s s _).2.2 ids p

/-- C13, determinism: the result of `steps.evaluate(B)` is a function of the registry and
the budget alone; it does not depend on the value the `limit` field held before the call;
the call leaves the registry's list of steps unchanged; and a second call, made on the
`steps` value the first one left behind, returns the same sequence in the same order. -/
theorem determinism (mem : heap) (registry : path) (l1 l2 B : Int) :
    steps.evaluate mem ⟨registry, l1⟩ B = steps.evaluate mem ⟨registry, l2⟩ B ∧
      (steps.evaluate mem ⟨registry, l1⟩ B).1.path = registry ∧
      (steps.evaluate mem (steps.evaluate mem ⟨registry, l1⟩ B).1 B).2 =
        (steps.evaluate mem ⟨registry, l1⟩ B).2 := by
  have hpath : (steps.evaluate mem ⟨registry, l1⟩ B).1.path = registry :=
    (evaluate_sound mem B.toNat ⟨registry, B⟩ [] []).1
  refine ⟨rfl, hpath, ?_⟩
  show (evaluate mem B.toNat ⟨(steps.evaluate mem ⟨registry, l1⟩ B).1.path, B⟩ [] []).2 = _
  rw [hpath]
  rfl

/-- C14, `count` is order-insensitive: for paths `P` and `P2` that are permutations of each
other `count(S, P) = count(S, P2)`, where `count(S, P)` is the non-negative number of
entries of `P` whose identifier equals the identifier of `S`. -/
theorem count_perm (ids : Nat → String) (S : Nat) (P P2 : path) (h : P.Perm P2) :
    path.count ids P S = path.count ids P2 S ∧ 0 ≤ path.count ids P S ∧
      path.count ids P S = ((P.filter (fun e => decide (ids e = ids S))).length : Int) := by
  refine ⟨?_, ?_, ?_⟩
  · rw [count_eq_countP, count_eq_countP, h.countP_eq]
  · rw [count_eq_countP]
    exact Int.natCast_nonneg _
  · rw [count_eq_countP, List.countP_eq_length_filter]

theorem count_perm_witness :
    ([0, 1, 0] : path).Perm [0, 0, 1] ∧
      (path.count exampleWorld.mem.ids [0, 1, 0] 0 =
          path.count exampleWorld.mem.ids [0, 0, 1] 0 ∧
        0 ≤ path.count exampleWorld.mem.ids [0, 1, 0] 0 ∧
        path.count exampleWorld.mem.ids [0, 1, 0] 0 =
          ((([0, 1, 0] : path).filter
            (fun e => decide (exampleWorld.mem.ids e = exampleWorld.mem.ids 0))).length :
            Int)) :=
  ⟨by decide, count_perm exampleWorld.mem.ids 0 [0, 1, 0] [0, 0, 1] (by decide)⟩

/-- C15, prefixes are recorded independently: for every registry and budget, when `P` is in
the sequence returned by `steps.evaluate` and a prefix `Q` of `P` (the empty path included)
satisfies the completion predicate of every registry step, `Q` is in the sequence too,
whether or not the budget truncated the search. -/
theorem prefixes_recorded (mem : heap) (s : steps) (B : Int) (P Q : path)
    (hP : P ∈ (steps.evaluate mem s B).2) (hQ : Q <+: P)
    (hcomp : ∀ S ∈ s.path,
      (mem S).postCondition = none ∨
        ∃ c, (mem S).postCondition = some c ∧ c mem.ids Q = true) :
    Q ∈ (steps.evaluate mem s B).2 := by
  have hpost : postConditionsMet mem s.path Q = true := by
    unfold postConditionsMet
    rw [List.all_eq_true]
    intro S hS
    rw [completes_eq_holds]
    exact (holds_iff _ _ _).2 (hcomp S hS)
  exact evaluate_closed mem B.toNat ⟨s.path, B⟩ [] [] (steps.evaluate mem s B).2
    (List.nil_append _).symm P hP Q (List.nil_prefix) hQ hpost

theorem prefixes_recorded_witness :
    ([0, 1] ∈ (steps.evaluate exampleWorld.mem exampleWorld.s 10).2 ∧
      ([0] : path) <+: [0, 1] ∧
      (∀ S ∈ exampleWorld.s.path,
        (exampleWorld.mem S).postCondition = none ∨
          ∃ c, (exampleWorld.mem S).postCondition = some c ∧
            c exampleWorld.mem.ids [0] = true)) ∧
      [0] ∈ (steps.evaluate exampleWorld.mem exampleWorld.s 10).2 :=
  have hcomp : ∀ S ∈ exampleWorld.s.path,
      (exampleWorld.mem S).postCondition = none ∨
        ∃ c, (exampleWorld.mem S).postCondition = some c ∧
          c exampleWorld.mem.ids [0] = true := by
    intro S hS
    have h : completes exampleWorld.mem S [0] = true := by
      have hp : exampleWorld.s.path = [0, 1] := by decide
      rw [hp] at hS
      have h2 : S = 0 ∨ S = 1 := by simpa using hS
      rcases h2 with rfl | rfl <;> decide
    rw [completes_eq_holds] at h
    exact (holds_iff _ _ _).1 h
  ⟨⟨by decide, by decide, hcomp⟩,
    prefixes_recorded exampleWorld.mem exampleWorld.s 10 [0, 1] [0] (by decide) (by decide)
      hcomp⟩

/-- C16, branching follows registry insertion order: for a registry of pairwise distinct
steps, when `P` and `Q` are in the sequence returned by `steps.evaluate`, agree on the
entries before some position and there hold steps `a` and `b` with `a` added to the
registry before `b`, every occurrence of `P` comes before every occurrence of `Q`. -/
theorem branch_order (mem : heap) (s : steps) (B : Int) (P Q c tP tQ : path)
    (a b i j m n : Nat) (hnd : s.path.Nodup)
    (hi : (steps.evaluate mem s B).2[i]? = some P)
    (hj : (steps.evaluate mem s B).2[j]? = some Q) (hPc : P = c ++ a :: tP)
    (hQc : Q = c ++ b :: tQ) (hmn : m < n) (hm : s.path[m]? = some a)
    (hn : s.path[n]? = some b) : i < j := by
  have hbr : branchBefore s.path P Q := ⟨c, a, b, tP, tQ, hPc, hQc, m, n, hmn, hm, hn⟩
  have pw := evaluate_order mem s.path hnd B.toNat ⟨s.path, B⟩ [] []
    (steps.evaluate mem s B).2 rfl (List.nil_append _).symm
  rw [List.pairwise_iff_getElem] at pw
  obtain ⟨hi1, hi2⟩ := List.getElem?_eq_some.1 hi
  obtain ⟨hj1, hj2⟩ := List.getElem?_eq_some.1 hj
  by_contra hcon
  rcases Nat.lt_or_eq_of_le (Nat.le_of_not_lt hcon) with hlt | heq
  · have := pw j i hj1 hi1 hlt
    rw [hi2, hj2] at this
    exact this hbr
  · subst heq
    rw [hi2] at hj2
    rw [hPc, hQc] at hj2
    have hab : a = b := by
      have := List.append_cancel_left hj2
      simp only [List.cons.injEq] at this
      exact this.1
    exact addedBefore_ne hnd ⟨m, n, hmn, hm, hn⟩ hab

theorem branch_order_witness :
    (branchWorld.s.path.Nodup ∧
      (steps.evaluate branchWorld.mem branchWorld.s 10).2[0]? = some [0, 1] ∧
      (steps.evaluate branchWorld.mem branchWorld.s 10).2[2]? = some [1, 0] ∧
      ([0, 1] : path) = [] ++ 0 :: [1] ∧ ([1, 0] : path) = [] ++ 1 :: [0] ∧ 0 < 1 ∧
      branchWorld.s.path[0]? = some 0 ∧ branchWorld.s.path[1]? = some 1) ∧ 0 < 2 :=
  ⟨⟨by decide, by decide, by decide, rfl, rfl, by decide, by decide, by decide⟩,
    branch_order branchWorld.mem branchWorld.s 10 [0, 1] [1, 0] [] [1] [0] 0 1 0 2 0 1
      (by decide) (by decide) (by decide) rfl rfl (by decide) (by decide) (by decide)⟩

/-- C17, termination: for every registry, also one that admits infinitely many paths, and
every integer budget `B`, the search returns: run with any checked bound of at least
`max(B, 0)` on the recursion depth it never needs to recurse deeper and yields the result
of `steps.evaluate(B)`; and a call whose remaining budget is `≤ 0` returns at once, at
every depth bound. -/
theorem termination (mem : heap) (s : steps) (B : Int) (fuel : Nat)
    (hfuel : B.toNat ≤ fuel) :
    evaluateChecked mem fuel ⟨s.path, B⟩ [] [] = some (steps.evaluate mem s B) ∧
      ∀ (d : Nat) (st : steps) (p : path) (paths : List path), st.limit ≤ 0 →
        evaluateChecked mem d st p paths = some (st, paths) := by
  refine ⟨?_, ?_⟩
  · rw [evaluateChecked_eq mem fuel ⟨s.path, B⟩ [] [] hfuel]
    unfold steps.evaluate
    rw [evaluate_fuel mem fuel B.toNat ⟨s.path, B⟩ [] [] hfuel (le_refl _)]
  · intro d st p paths h
    cases d with
    | zero => rw [evaluateChecked_zero, if_pos h]
    | succ d => rw [evaluateChecked_succ, if_pos h]

theorem termination_witness :
    (3 : Int).toNat ≤ 5 ∧
      (evaluateChecked pairWorld.mem 5 ⟨pairWorld.s.path, 3⟩ [] [] =
          some (steps.evaluate pairWorld.mem pairWorld.s 3) ∧
        ∀ (d : Nat) (st : steps) (p : path) (paths : List path), st.limit ≤ 0 →
          evaluateChecked pairWorld.mem d st p paths = some (st, paths)) :=
  ⟨by decide, termination pairWorld.mem pairWorld.s 3 5 (by decide)⟩

/-- C18, the budget bounds the output: for every registry and budget `B` the sequence
returned by `steps.evaluate(B)` has at most `max(B, 0)` entries. -/
theorem output_bounded (mem : heap) (s : steps) (B : Int) :
    ((steps.evaluate mem s B).2.length : Int) ≤ max B 0 := by
  unfold steps.evaluate
  by_cases hB : B ≤ 0
  · rw [evaluate_limit_nonpos mem B.toNat ⟨s.path, B⟩ [] [] hB]
    simp
  · obtain ⟨h1, h2⟩ := evaluate_length mem B.toNat ⟨s.path, B⟩ [] []
    have h3 := h2 (by show 0 ≤ B; omega)
    have h4 : ((evaluate mem B.toNat ⟨s.path, B⟩ [] []).2.length : Int) +
        (evaluate mem B.toNat ⟨s.path, B⟩ [] []).1.limit ≤ 0 + B := by
      simpa using h1
    have h5 : B ≤ max B 0 := le_max_left _ _
    omega

/-- C19, monotonicity in the budget: for every registry and budgets `B ≤ B2` the sequence
returned by `steps.evaluate(B)` is a subsequence, in the same relative order, of the one
returned by `steps.evaluate(B2)`. -/
theorem budget_monotone (mem : heap) (s : steps) (B B2 : Int) (h : B ≤ B2) :
    List.Sublist (steps.evaluate mem s B).2 (steps.evaluate mem s B2).2 :=
  steps_evaluate_sublist mem s B B2 h

theorem budget_monotone_witness :
    (2 : Int) ≤ 10 ∧
      List.Sublist (steps.evaluate exampleWorld.mem exampleWorld.s 2).2
        (steps.evaluate exampleWorld.mem exampleWorld.s 10).2 :=
  ⟨by decide, budget_monotone exampleWorld.mem exampleWorld.s 2 10 (by decide)⟩

/-- C20, no duplicates: for a registry whose steps have pairwise distinct identifiers and
every budget, the sequence returned by `steps.evaluate` holds no path twice. -/
theorem no_duplicates (mem : heap) (s : steps) (B : Int)
    (hids : distinctIds mem s.path) : (steps.evaluate mem s B).2.Nodup :=
  evaluate_nodup mem s B (List.Nodup.of_map _ hids)

theorem no_duplicates_witness :
    distinctIds exampleWorld.mem exampleWorld.s.path ∧
      (steps.evaluate exampleWorld.mem exampleWorld.s 10).2.Nodup :=
  ⟨by unfold distinctIds; decide,
    no_duplicates exampleWorld.mem exampleWorld.s 10 (by unfold distinctIds; decide)⟩

end StepConstraintSolver
